import Mathlib

/-!
Shallow embedding of the chess rules engine (files `abstract_types.py`,
`objects.py`, `game_engine.py`).  Positions are 1-based pairs of integers
(file, rank); the board is an 8x8 grid addressed internally by
(row = 8 - rank, column = file - 1), exactly as `Board.point_to_index` does.
Python's in-place mutation is rendered as explicit state passing; fallible
operations (`Maybe.unwrap`, `sys.exit`) are rendered with `Option` and a
dedicated result constructor.  The non-terminating `while True` loop of
`follow_direction` is rendered with an explicit fuel parameter; 64 units of
fuel strictly exceed the number of in-bounds steps any nonzero direction
vector can make, and all safety theorems below are proved for every fuel
value, so the truncation is invisible to them.
-/

set_option maxRecDepth 10000

/-- Point from `abstract_types.py`: a pair of Python integers (file, rank). -/
abbrev Point := Int × Int

/-- Color from `abstract_types.py`; `val` is the enum value (white = 1, black = -1). -/
inductive Color where
  | white
  | black
deriving DecidableEq

def Color.val : Color → Int
  | Color.white => 1
  | Color.black => -1

def Color.other : Color → Color
  | Color.white => Color.black
  | Color.black => Color.white

/-- Direction from `abstract_types.py`: a displacement vector plus the three
movement-policy flags and the reach bound (0 = unbounded). -/
structure Direction where
  x : Int
  y : Int
  is_capture_direction : Bool
  must_capture : Bool
  reach : Int
deriving DecidableEq

/-- Direction.__add__ : adds the vectors and resets the flags to their defaults. -/
def Direction.dadd (a b : Direction) : Direction :=
  ⟨a.x + b.x, a.y + b.y, true, false, 0⟩

/-- Direction.__mul__ : scales the vector and resets the flags to their defaults. -/
def Direction.dmul (a : Direction) (n : Int) : Direction :=
  ⟨a.x * n, a.y * n, true, false, 0⟩

def UP : Direction := ⟨0, 1, true, false, 0⟩
def DOWN : Direction := UP.dmul (-1)
def RIGHT : Direction := ⟨1, 0, true, false, 0⟩
def LEFT : Direction := RIGHT.dmul (-1)

def OrthogonalDirections : List Direction := [UP, DOWN, RIGHT, LEFT]

def DiagonalDirections : List Direction :=
  [UP.dadd RIGHT, UP.dadd LEFT, DOWN.dadd RIGHT, DOWN.dadd LEFT]

def JumpDirections : List Direction :=
  [(UP.dadd UP).dadd RIGHT, (UP.dadd UP).dadd LEFT,
   (DOWN.dadd DOWN).dadd RIGHT, (DOWN.dadd DOWN).dadd LEFT,
   (LEFT.dadd LEFT).dadd UP, (LEFT.dadd LEFT).dadd DOWN,
   (RIGHT.dadd RIGHT).dadd UP, (RIGHT.dadd RIGHT).dadd DOWN]

/-- Piece kinds: the six concrete subclasses of `AbstractPiece` in `objects.py`. -/
inductive Kind where
  | pawn
  | rook
  | knight
  | bishop
  | king
  | queen
deriving DecidableEq

/-- AbstractPiece from `objects.py`: color, direction set and the (never written)
`has_moved` flag.  The display symbol is omitted: it is only used by `__str__`. -/
structure Piece where
  color : Color
  kind : Kind
  directions : List Direction
  has_moved : Bool
deriving DecidableEq

/-- Direction sets installed by the dataclass field factories of the six
subclasses, before `__post_init__` runs. -/
def pieceDirections : Kind → List Direction
  | Kind.pawn =>
      [⟨0, 1, false, false, 2⟩, ⟨1, 1, true, true, 1⟩, ⟨-1, 1, true, true, 1⟩]
  | Kind.rook => OrthogonalDirections
  | Kind.knight => JumpDirections
  | Kind.bishop => DiagonalDirections
  | Kind.king => DiagonalDirections ++ OrthogonalDirections
  | Kind.queen => DiagonalDirections ++ OrthogonalDirections

/-- AbstractPiece.change_reach : sets the reach of every direction of the piece. -/
def change_reach (pc : Piece) (new_reach : Int) : Piece :=
  { pc with directions := pc.directions.map (fun d => { d with reach := new_reach }) }

/-- Piece construction: the field factory installs `pieceDirections`, then
`AbstractPiece.__post_init__` multiplies every `y` by the color's enum value,
and `Knight.__post_init__` / `King.__post_init__` additionally `change_reach(1)`. -/
def mkPiece (k : Kind) (c : Color) : Piece :=
  let dirs := (pieceDirections k).map (fun d => { d with y := d.y * c.val })
  let dirs :=
    match k with
    | Kind.knight => dirs.map (fun d => { d with reach := 1 })
    | Kind.king => dirs.map (fun d => { d with reach := 1 })
    | _ => dirs
  ⟨c, k, dirs, false⟩

/-- Validity of a position, as checked by `Board.index_within_board`:
both the file and the rank lie in [1, 8]. -/
abbrev InBounds (p : Point) : Prop :=
  1 ≤ p.1 ∧ p.1 ≤ 8 ∧ 1 ≤ p.2 ∧ p.2 ≤ 8

/-- Board.index_within_board, as a boolean (the Norwegian error message that
accompanies the boolean in the source is dropped; no caller inspects it). -/
def index_within_board (p : Point) : Bool := decide (InBounds p)

/-- Board from `objects.py`, with the default dimensions 8 x 8: the grid maps the
internal (row, column) index to an optional piece.  `Board.point_to_index`
translates a position (x, y) to column x - 1 and row 8 - y. -/
structure Board where
  grid : Fin 8 → Fin 8 → Option Piece

/-- Board.get composed with Board.point_to_index.  The source raises ValueError
on an out-of-bounds position; that fatal path is totalised to `none`, and every
theorem below that touches it carries an in-bounds hypothesis. -/
def Board.get (b : Board) (p : Point) : Option Piece :=
  if h : InBounds p then
    b.grid ⟨(8 - p.2).toNat, by omega⟩ ⟨(p.1 - 1).toNat, by omega⟩
  else none

/-- Board.update_square composed with Board.point_to_index; the fatal
out-of-bounds path is totalised to a no-op. -/
def Board.update_square (b : Board) (new_value : Option Piece) (p : Point) : Board :=
  if h : InBounds p then
    ⟨fun r c =>
      if r = (⟨(8 - p.2).toNat, by omega⟩ : Fin 8) ∧ c = (⟨(p.1 - 1).toNat, by omega⟩ : Fin 8)
      then new_value else b.grid r c⟩
  else b

/-- Board.is_empty_square. -/
def Board.is_empty_square (b : Board) (p : Point) : Bool := b.get p == none

/-- Board.string_to_piece : layout character to piece.  The ValueError raised on an
unrecognised character is totalised to `none` (a fatal construction error). -/
def string_to_piece (value : Char) : Option Piece :=
  let color := if value.isUpper then Color.white else Color.black
  match value.toLower with
  | '.' => none
  | 'p' => some (mkPiece Kind.pawn color)
  | 'r' => some (mkPiece Kind.rook color)
  | 'n' => some (mkPiece Kind.knight color)
  | 'b' => some (mkPiece Kind.bishop color)
  | 'k' => some (mkPiece Kind.king color)
  | 'q' => some (mkPiece Kind.queen color)
  | _ => none

/-- Board.create_board : row-major layout string, rank 8 first. -/
def create_board (board_string : List Char) : Board :=
  ⟨fun h w => string_to_piece (board_string.getD (h.val * 8 + w.val) '.')⟩

/-- Default layout string of `Board.__init__`:
`"RNBQKBNRPPPPPPPP".lower() + 32 * "." + "PPPPPPPPRNBQKBNR"`. -/
def initial_board_string : List Char :=
  ("rnbqkbnrpppppppp".toList) ++ List.replicate 32 '.' ++ ("PPPPPPPPRNBQKBNR".toList)

def initial_board : Board := create_board initial_board_string

/-- add_direction from `objects.py`. -/
def add_direction (a : Point) (b : Direction) : Point := (a.1 + b.x, a.2 + b.y)

/-- Loop body of `follow_direction`, with an explicit fuel parameter replacing
`while True` (the loop variable `i` starts at 1). -/
def follow_loop (b : Board) (d : Direction) (self_color : Color) (max_distance : Int)
    (is_capture_direction must_capture : Bool) : Nat → Int → Point → List Point
  | 0, _, _ => []
  | fuel+1, i, position =>
    if max_distance ≠ 0 ∧ i > max_distance then []
    else
      let position' := add_direction position d
      if ¬ InBounds position' then []
      else
        match b.get position' with
        | some piece =>
          if piece.color == self_color || !is_capture_direction then [] else [position']
        | none =>
          if !must_capture then
            position' ::
              follow_loop b d self_color max_distance is_capture_direction must_capture
                fuel (i+1) position'
          else
            follow_loop b d self_color max_distance is_capture_direction must_capture
              fuel (i+1) position'

/-- follow_direction from `objects.py` (ray casting along one direction). -/
def follow_direction (b : Board) (position : Point) (d : Direction) (self_color : Color)
    (max_distance : Int) (is_capture_direction must_capture : Bool) : List Point :=
  follow_loop b d self_color max_distance is_capture_direction must_capture 64 1 position

/-- AbstractPiece.get_movements : union of the rays of all directions, in
direction order. -/
def get_movements (b : Board) (position : Point) (directions : List Direction)
    (color : Color) : List Point :=
  directions.flatMap (fun direction =>
    follow_direction b position direction color direction.reach
      direction.is_capture_direction direction.must_capture)

/-- AbstractPiece.get_capture_movements : same, restricted to the
capture-allowed directions. -/
def get_capture_movements (pc : Piece) (b : Board) (position : Point)
    (directions : List Direction) : List Point :=
  get_movements b position
    (directions.filter (fun direction => direction.is_capture_direction)) pc.color

/-- ALL_PIECES list of `Player.is_in_check`. -/
def ALL_PIECES : List Kind :=
  [Kind.pawn, Kind.king, Kind.queen, Kind.rook, Kind.knight, Kind.bishop]

/-- Defending and attacking colors, recovered by the opening match of
`Player.is_in_check` from the occupant of the king square (with the source's
fallback (white, black) when that square does not hold a king).  The source
method never reads `self`. -/
def check_colors (b : Board) (king_position : Point) : Color × Color :=
  match b.get king_position with
  | some pc =>
      if pc.kind = Kind.king then (pc.color, pc.color.other) else (Color.white, Color.black)
  | none => (Color.white, Color.black)

/-- Player.is_in_check from `objects.py`: the kind-probe disjunction over the
six piece kinds. -/
def is_in_check (b : Board) (king_position : Point) : Bool :=
  let cp : Color × Color := check_colors b king_position
  ALL_PIECES.any (fun piece_type =>
    let piece := mkPiece piece_type cp.1
    (get_capture_movements piece b king_position piece.directions).any (fun pos =>
      match b.get pos with
      | some opp_piece => opp_piece.kind == piece_type && opp_piece.color == cp.2
      | none => false))

/-- Player from `objects.py`; `__post_init__` caches the king position from the
color alone: (5, 1) for white and (5, 8) for black. -/
structure Player where
  name : String
  color : Color
  check_mate : Bool
  king_position : Point
deriving DecidableEq

def mkPlayer (name : String) (color : Color) : Player :=
  ⟨name, color, false,
    match color with
    | Color.white => ((5 : Int), (1 : Int))
    | Color.black => ((5 : Int), (8 : Int))⟩

/-- remove_piece from `game_engine.py`: returns the removed occupant and the
board with the square cleared. -/
def remove_piece (bd : Board) (position : Point) : Option Piece × Board :=
  (bd.get position, bd.update_square none position)

/-- move_escapes_check from `game_engine.py`: simulate the move, query
`is_in_check`, then undo the mutations.  The mutated board and player are
returned explicitly (the source mutates them in place). -/
def move_escapes_check (bd : Board) (player : Player) (new_position old_position : Point) :
    Bool × Board × Player :=
  let s1 := remove_piece bd new_position
  let blocking_piece := s1.1
  let s2 := remove_piece s1.2 old_position
  let piece := s2.1
  let b3 := s2.2.update_square piece new_position
  let rp : Bool × Player :=
    match piece with
    | some pc =>
      if pc.kind = Kind.king then
        let p1 := { player with king_position := new_position }
        (!(is_in_check b3 p1.king_position), { p1 with king_position := old_position })
      else (!(is_in_check b3 player.king_position), player)
    | none => (!(is_in_check b3 player.king_position), player)
  let s4 := remove_piece b3 new_position
  let b5 := s4.2.update_square blocking_piece new_position
  let b6 := b5.update_square piece old_position
  (rp.1, b6, rp.2)

/-- get_legal_moves from `game_engine.py`.  The source unwraps the occupant of
the queried square and raises on an empty square; that fatal path is the `none`
result.  The board and player are passed unchanged to every filter iteration,
which matches the source because `move_escapes_check` restores the board before
the next iteration runs (destinations never coincide with the origin) and
because the king branch overwrites the cached king position before reading it. -/
def get_legal_moves (b : Board) (position : Point) (player : Player) :
    Option (List Point) :=
  match b.get position with
  | none => none
  | some piece =>
    let legal_movements := get_movements b position piece.directions piece.color
    some (legal_movements.filter (fun move =>
      (move_escapes_check b player move position).1))

/-- is_check_mate from `game_engine.py`: the returned boolean of the loop over
the players (the loop-body condition per player: currently in check and the
king square has no legal destinations). -/
def is_check_mate (b : Board) (players : List Player) : Bool :=
  players.any (fun player =>
    is_in_check b player.king_position &&
      decide (get_legal_moves b player.king_position player = some []))

/-- Promotion choices accepted by the `promote_piece` input loop in
`game_engine.py`: the characters q, b, r, n, p. -/
inductive PromoKind where
  | q
  | b
  | r
  | n
  | p
deriving DecidableEq

def PromoKind.toKind : PromoKind → Kind
  | PromoKind.q => Kind.queen
  | PromoKind.b => Kind.bishop
  | PromoKind.r => Kind.rook
  | PromoKind.n => Kind.knight
  | PromoKind.p => Kind.pawn

/-- promote_piece from `game_engine.py`, with the interactive choice passed as a
parameter: replaces the occupant of the square by a fresh piece of the chosen
kind and the given color. -/
def promote_piece (bd : Board) (color : Color) (position : Point) (choice : PromoKind) :
    Board :=
  bd.update_square (some (mkPiece choice.toKind color)) position

/-- apply_effects from `game_engine.py`.  The source mutates the moved pawn in
place (the board square at `new_position` holds that very object), which is
rendered here as an explicit board update with the reach-changed pawn. -/
def apply_effects (bd : Board) (position new_position : Point) (player : Player)
    (moved_piece : Option Piece) (choice : PromoKind) : Board × Player :=
  match moved_piece with
  | some pc =>
    if pc.kind = Kind.pawn then
      let pawn := change_reach pc 1
      let bd1 := bd.update_square (some pawn) new_position
      if pawn.color = Color.black ∧ new_position.2 = 1 then
        (promote_piece bd1 pawn.color new_position choice, player)
      else if pawn.color = Color.white ∧ new_position.2 = 8 then
        (promote_piece bd1 pawn.color new_position choice, player)
      else (bd1, player)
    else if pc.kind = Kind.king then
      (bd, { player with king_position := new_position })
    else (bd, player)
  | none => (bd, player)

/-- move_piece from `game_engine.py`: copy the moving piece to the destination,
clear the origin, then apply the side effects. -/
def move_piece (bd : Board) (position new_position : Point) (player : Player)
    (choice : PromoKind) : Board × Player :=
  let square_value := bd.get position
  let bd1 := bd.update_square square_value new_position
  let s := remove_piece bd1 position
  apply_effects s.2 position new_position player s.1 choice

/-- Result of the input-collection pipeline.  `exit` models the `sys.exit(0)`
call that `check_input_string` performs itself on the quit tokens. -/
inductive InputResult (α : Type) where
  | exit
  | failure (msg : String)
  | success (val : α)
deriving DecidableEq

/-- Python str.lower() for ASCII, written over the character list so that it
evaluates by kernel reduction (String.map is compiled code in Lean). -/
def string_lower (s : String) : String := String.mk (s.toList.map Char.toLower)

/-- check_input_string from `game_engine.py`.  Note that the quit tokens are
handled inside this function by calling `sys.exit(0)` directly. -/
def check_input_string (input_string : String) : InputResult (Char × Char) :=
  if string_lower input_string = "quit" ∨ string_lower input_string = "q" ∨
      string_lower input_string = "exit" then
    InputResult.exit
  else if input_string.length ≠ 2 then
    InputResult.failure ("Inputen kan ikke være " ++ toString input_string.length ++ " lang.")
  else
    match input_string.toList with
    | [string_x, y] =>
      if ¬ y.isDigit then InputResult.failure ("Siste delen må være et tall.")
      else InputResult.success (string_x, y)
    | _ => InputResult.failure ("")

/-- convert_input from `game_engine.py`.  The membership guard tests the
character as received (without lowering); only the subsequent `find` lowers it.
`int(y)` is rendered as the digit value (the guard in `check_input_string`
ensures `y` is a digit on every reachable input). -/
def convert_input (player_input : Char × Char) : Except String Point :=
  let string_x := player_input.1
  let y := player_input.2
  if ¬ ("abcdefgh".toList.contains string_x) then
    Except.error ("Denne indeksen, " ++ string_x.toString ++ ", er ikke gyldig.")
  else
    Except.ok
      ((("abcdefgh".toList.indexOf string_x.toLower : Nat) : Int) + 1,
       (y.toNat : Int) - ('0'.toNat : Int))

/-- The composition `check_input_string` then (on success) `convert_input`, as
run by `pipeline.flow(input, check_input_string, bind(convert_input), ...)`. -/
def input_pipeline (s : String) : InputResult Point :=
  match check_input_string s with
  | InputResult.exit => InputResult.exit
  | InputResult.failure e => InputResult.failure e
  | InputResult.success xy =>
    match convert_input xy with
    | Except.error e => InputResult.failure e
    | Except.ok pt => InputResult.success pt

/-! ## Basic board lemmas -/

theorem Board.get_of_not_inBounds (b : Board) (p : Point) (h : ¬ InBounds p) :
    b.get p = none := by
  unfold Board.get
  rw [dif_neg h]

theorem Board.inBounds_of_get_some (b : Board) (p : Point) (pc : Piece)
    (h : b.get p = some pc) : InBounds p := by
  by_contra hn
  rw [Board.get_of_not_inBounds b p hn] at h
  cases h
theorem Board.get_update_square (b : Board) (v : Option Piece) (p q : Point) :
    (b.update_square v p).get q = if q = p ∧ InBounds p then v else b.get q := by
  by_cases hp : InBounds p
  · by_cases hqp : q = p
    · subst hqp
      rw [if_pos ⟨rfl, hp⟩]
      unfold Board.update_square Board.get
      rw [dif_pos hp, dif_pos hp]
      dsimp only
      rw [if_pos ⟨rfl, rfl⟩]
    · rw [if_neg (fun h => hqp h.1)]
      by_cases hq : InBounds q
      · unfold Board.update_square Board.get
        rw [dif_pos hp, dif_pos hq, dif_pos hq]
        dsimp only
        split
        · rename_i hcond
          exfalso
          apply hqp
          have e1 : (8 - q.2).toNat = (8 - p.2).toNat := congrArg Fin.val hcond.1
          have e2 : (q.1 - 1).toNat = (p.1 - 1).toNat := congrArg Fin.val hcond.2
          obtain ⟨hq1, hq2, hq3, hq4⟩ := hq
          obtain ⟨hp1, hp2, hp3, hp4⟩ := hp
          exact Prod.ext (by omega) (by omega)
        · rfl
      · rw [Board.get_of_not_inBounds _ q hq, Board.get_of_not_inBounds b q hq]
  · have hb : b.update_square v p = b := by
      unfold Board.update_square
      rw [dif_neg hp]
    rw [hb, if_neg (fun h => hp h.2)]

/-! ## Ray lemmas -/

/-- The k-th square along the ray that starts at `p` and repeatedly applies the
direction vector `d` (`stepN p d 0 = p`). -/
def stepN (p : Point) (d : Direction) : Nat → Point
  | 0 => p
  | k+1 => add_direction (stepN p d k) d

theorem stepN_eq (p : Point) (d : Direction) (k : Nat) :
    stepN p d k = (p.1 + (k : Int) * d.x, p.2 + (k : Int) * d.y) := by
  induction k with
  | zero => simp [stepN]
  | succ n ih =>
    rw [stepN, ih, add_direction]
    push_cast
    refine Prod.ext ?_ ?_ <;> dsimp only <;> ring

theorem stepN_shift (p : Point) (d : Direction) (n : Nat) :
    stepN (add_direction p d) d n = stepN p d (n + 1) := by
  induction n with
  | zero => rfl
  | succ m ih =>
    show add_direction (stepN (add_direction p d) d m) d = add_direction (stepN p d (m + 1)) d
    rw [ih]

/-- Structure of one ray: an initial run of empty squares, optionally closed by
a single enemy-occupied square, which can only be present on a
capture-allowed direction. -/
theorem follow_loop_structure (b : Board) (d : Direction) (c : Color) (maxd : Int)
    (cap must : Bool) (fuel : Nat) :
    ∀ (i : Int) (pos : Point),
      ∃ M C, follow_loop b d c maxd cap must fuel i pos = M ++ C ∧
        (∀ m ∈ M, b.get m = none) ∧
        (C = [] ∨ ∃ q pc, C = [q] ∧ b.get q = some pc ∧ pc.color ≠ c ∧ cap = true) := by
  induction fuel with
  | zero =>
    intro i pos
    exact ⟨[], [], rfl, by simp, Or.inl rfl⟩
  | succ n ih =>
    intro i pos
    simp only [follow_loop]
    by_cases h1 : maxd ≠ 0 ∧ i > maxd
    · rw [if_pos h1]
      exact ⟨[], [], rfl, by simp, Or.inl rfl⟩
    · rw [if_neg h1]
      by_cases h2 : ¬ InBounds (add_direction pos d)
      · rw [if_pos h2]
        exact ⟨[], [], rfl, by simp, Or.inl rfl⟩
      · rw [if_neg h2]
        cases hg : b.get (add_direction pos d) with
        | some piece =>
          dsimp only
          by_cases h3 : (piece.color == c || !cap) = true
          · rw [if_pos h3]
            exact ⟨[], [], rfl, by simp, Or.inl rfl⟩
          · rw [if_neg h3]
            refine ⟨[], [add_direction pos d], rfl, by simp, Or.inr ?_⟩
            refine ⟨add_direction pos d, piece, rfl, hg, ?_, ?_⟩
            · intro hc
              apply h3
              simp [hc]
            · by_contra hcap
              apply h3
              simp [Bool.not_eq_true] at hcap
              simp [hcap]
        | none =>
          dsimp only
          obtain ⟨M, C, heq, hM, hC⟩ := ih (i + 1) (add_direction pos d)
          by_cases h4 : (!must) = true
          · rw [if_pos h4]
            refine ⟨add_direction pos d :: M, C, by rw [heq, List.cons_append], ?_, hC⟩
            intro m hm
            rcases List.mem_cons.mp hm with rfl | hm
            · exact hg
            · exact hM m hm
          · rw [if_neg h4]
            exact ⟨M, C, heq, hM, hC⟩

/-- Every square yielded by a ray is the k-th step along the direction vector,
all strictly earlier steps land on empty in-bounds squares, the yielded square
is in bounds, and k respects the reach bound (counted from the loop counter's
starting value `i`). -/
theorem mem_follow_loop_ray (b : Board) (d : Direction) (c : Color) (maxd : Int)
    (cap must : Bool) (fuel : Nat) :
    ∀ (i : Int) (pos : Point) (q : Point),
      q ∈ follow_loop b d c maxd cap must fuel i pos →
      ∃ k : Nat, 1 ≤ k ∧ q = stepN pos d k ∧
        (∀ j : Nat, 1 ≤ j → j < k → b.get (stepN pos d j) = none ∧ InBounds (stepN pos d j)) ∧
        InBounds q ∧ (maxd = 0 ∨ i + k - 1 ≤ maxd) := by
  induction fuel with
  | zero =>
    intro i pos q hq
    simp only [follow_loop, List.not_mem_nil] at hq
  | succ n ih =>
    intro i pos q hq
    simp only [follow_loop] at hq
    by_cases h1 : maxd ≠ 0 ∧ i > maxd
    · rw [if_pos h1] at hq
      simp at hq
    · rw [if_neg h1] at hq
      by_cases h2 : ¬ InBounds (add_direction pos d)
      · rw [if_pos h2] at hq
        simp at hq
      · rw [if_neg h2] at hq
        push_neg at h2
        cases hg : b.get (add_direction pos d) with
        | some piece =>
          rw [hg] at hq
          dsimp only at hq
          by_cases h3 : (piece.color == c || !cap) = true
          · rw [if_pos h3] at hq
            simp at hq
          · rw [if_neg h3] at hq
            have hq' : q = add_direction pos d := by simpa using hq
            subst hq'
            refine ⟨1, le_refl 1, rfl, ?_, h2, by omega⟩
            intro j hj1 hjlt
            omega
        | none =>
          rw [hg] at hq
          dsimp only at hq
          by_cases h4 : (!must) = true
          · rw [if_pos h4] at hq
            rcases List.mem_cons.mp hq with rfl | hq
            · refine ⟨1, le_refl 1, rfl, ?_, h2, by omega⟩
              intro j hj1 hjlt
              omega
            · obtain ⟨k, hk1, hkq, hint, hinb, hreach⟩ := ih (i+1) (add_direction pos d) q hq
              refine ⟨k+1, by omega, ?_, ?_, hinb, ?_⟩
              · rw [hkq, stepN_shift]
              · intro j hj1 hjlt
                by_cases hj : j = 1
                · subst hj
                  exact ⟨hg, h2⟩
                · have hj1' : 1 ≤ j - 1 := by omega
                  have hj2' : j - 1 < k := by omega
                  have hr := hint (j-1) hj1' hj2'
                  rw [stepN_shift] at hr
                  have hjj : j - 1 + 1 = j := by omega
                  rw [hjj] at hr
                  exact hr
              · rcases hreach with h | h
                · exact Or.inl h
                · right
                  push_cast
                  push_cast at h
                  omega
          · rw [if_neg h4] at hq
            obtain ⟨k, hk1, hkq, hint, hinb, hreach⟩ := ih (i+1) (add_direction pos d) q hq
            refine ⟨k+1, by omega, ?_, ?_, hinb, ?_⟩
            · rw [hkq, stepN_shift]
            · intro j hj1 hjlt
              by_cases hj : j = 1
              · subst hj
                exact ⟨hg, h2⟩
              · have hj1' : 1 ≤ j - 1 := by omega
                have hj2' : j - 1 < k := by omega
                have hr := hint (j-1) hj1' hj2'
                rw [stepN_shift] at hr
                have hjj : j - 1 + 1 = j := by omega
                rw [hjj] at hr
                exact hr
            · rcases hreach with h | h
              · exact Or.inl h
              · right
                push_cast
                push_cast at h
                omega

/-- Constructive converse: the ray reaches its k-th step when every strictly
earlier step lands on an empty in-bounds square and the k-th step is an
in-bounds square holding an enemy piece, the direction allows captures, and the
reach bound and the fuel both admit k steps. -/
theorem follow_loop_reaches (b : Board) (d : Direction) (c : Color) (maxd : Int)
    (cap must : Bool) :
    ∀ (k fuel : Nat) (i : Int) (pos : Point) (pc : Piece),
      1 ≤ k → k ≤ fuel →
      (∀ j : Nat, 1 ≤ j → j < k → b.get (stepN pos d j) = none ∧ InBounds (stepN pos d j)) →
      InBounds (stepN pos d k) →
      b.get (stepN pos d k) = some pc → pc.color ≠ c → cap = true →
      (maxd = 0 ∨ i + k - 1 ≤ maxd) →
      stepN pos d k ∈ follow_loop b d c maxd cap must fuel i pos := by
  intro k
  induction k with
  | zero =>
    intro fuel i pos pc h1
    omega
  | succ k ih =>
    intro fuel i pos pc h1 hfuel hint hinb hocc hcol hcap hreach
    obtain ⟨n, rfl⟩ : ∃ n, fuel = n + 1 := ⟨fuel - 1, by omega⟩
    simp only [follow_loop]
    have hcond : ¬ (maxd ≠ 0 ∧ i > maxd) := by omega
    rw [if_neg hcond]
    by_cases hk0 : k = 0
    · subst hk0
      have hs : stepN pos d 1 = add_direction pos d := rfl
      rw [hs] at hinb hocc
      rw [if_neg (not_not_intro hinb), hocc]
      dsimp only
      have hcset : (pc.color == c || !cap) = false := by
        simp [hcol, hcap]
      rw [hcset]
      simp [hs]
    · have h1k : 1 ≤ k := by omega
      have hfirst := hint 1 (le_refl 1) (by omega)
      have hs : stepN pos d 1 = add_direction pos d := rfl
      rw [hs] at hfirst
      rw [if_neg (not_not_intro hfirst.2), hfirst.1]
      dsimp only
      have hmem : stepN pos d (k+1) ∈
          follow_loop b d c maxd cap must n (i+1) (add_direction pos d) := by
        have hres := ih n (i+1) (add_direction pos d) pc h1k (by omega)
          (fun j hj1 hjk => by
            rw [stepN_shift]
            exact hint (j+1) (by omega) (by omega))
          (by rw [stepN_shift]; exact hinb)
          (by rw [stepN_shift]; exact hocc)
          hcol hcap (by omega)
        rw [stepN_shift] at hres
        exact hres
      by_cases h4 : (!must) = true
      · rw [if_pos h4]
        exact List.mem_cons_of_mem _ hmem
      · rw [if_neg h4]
        exact hmem

/-- Squares yielded by a ray are empty or hold an enemy piece reached on a
capture-allowed direction. -/
theorem mem_follow_loop_occupancy (b : Board) (d : Direction) (c : Color) (maxd : Int)
    (cap must : Bool) (fuel : Nat) (i : Int) (pos q : Point)
    (hq : q ∈ follow_loop b d c maxd cap must fuel i pos) :
    b.get q = none ∨ ∃ pc, b.get q = some pc ∧ pc.color ≠ c ∧ cap = true := by
  obtain ⟨M, C, heq, hM, hC⟩ := follow_loop_structure b d c maxd cap must fuel i pos
  rw [heq] at hq
  rcases List.mem_append.mp hq with h | h
  · exact Or.inl (hM q h)
  · rcases hC with rfl | ⟨q', pc, rfl, hq', hcol, hcap⟩
    · simp at h
    · have hqq : q = q' := by simpa using h
      subst hqq
      exact Or.inr ⟨pc, hq', hcol, hcap⟩

/-- Squares yielded by the move generator are empty or hold an enemy piece. -/
theorem mem_get_movements_occupancy (b : Board) (pos : Point) (dirs : List Direction)
    (c : Color) (q : Point) (hq : q ∈ get_movements b pos dirs c) :
    b.get q = none ∨ ∃ pc, b.get q = some pc ∧ pc.color ≠ c := by
  simp only [get_movements, follow_direction, List.mem_flatMap] at hq
  obtain ⟨dir, _, hq⟩ := hq
  rcases mem_follow_loop_occupancy _ _ _ _ _ _ _ _ _ _ hq with h | ⟨pc, h1, h2, _⟩
  · exact Or.inl h
  · exact Or.inr ⟨pc, h1, h2⟩

/-- A destination of the move generator is never the origin square while the
origin holds a piece of the moving color. -/
theorem mem_get_movements_ne_self (b : Board) (pos : Point) (dirs : List Direction)
    (piece : Piece) (hpos : b.get pos = some piece) (q : Point)
    (hq : q ∈ get_movements b pos dirs piece.color) : q ≠ pos := by
  intro hqp
  rcases mem_get_movements_occupancy b pos dirs piece.color q hq with h | ⟨pc, h1, h2⟩
  · rw [hqp, hpos] at h
    cases h
  · rw [hqp, hpos] at h1
    cases h1
    exact h2 rfl

/-- When a yielded square is occupied it is the last square of its ray, and
every other yielded square of the ray is empty. -/
theorem follow_direction_capture_last (b : Board) (pos : Point) (d : Direction)
    (c : Color) (maxd : Int) (cap must : Bool) (q : Point)
    (hq : q ∈ follow_direction b pos d c maxd cap must)
    (hocc : b.get q ≠ none) :
    (follow_direction b pos d c maxd cap must).getLast? = some q ∧
      ∀ r ∈ follow_direction b pos d c maxd cap must, r ≠ q → b.get r = none := by
  obtain ⟨M, C, heq, hM, hC⟩ := follow_loop_structure b d c maxd cap must 64 1 pos
  unfold follow_direction at hq ⊢
  rw [heq] at hq ⊢
  rcases hC with rfl | ⟨q', pc, rfl, hq', hcol, hcap⟩
  · rw [List.append_nil] at hq
    exact absurd (hM q hq) hocc
  · have hqq : q = q' := by
      rcases List.mem_append.mp hq with h | h
      · exact absurd (hM q h) hocc
      · simpa using h
    subst hqq
    refine ⟨by simp, ?_⟩
    intro r hr hrq
    rcases List.mem_append.mp hr with h | h
    · exact hM r h
    · simp at h
      exact absurd h hrq

/-- Occupancy colors of a board: all that the ray walk inspects about a square. -/
def occColor (b : Board) (p : Point) : Option Color := (b.get p).map Piece.color

/-- Rays only depend on the boards through the occupancy colors. -/
theorem follow_loop_congr (b1 b2 : Board)
    (h : ∀ p, occColor b1 p = occColor b2 p)
    (d : Direction) (c : Color) (maxd : Int) (cap must : Bool) (fuel : Nat) :
    ∀ (i : Int) (pos : Point),
      follow_loop b1 d c maxd cap must fuel i pos =
        follow_loop b2 d c maxd cap must fuel i pos := by
  induction fuel with
  | zero =>
    intro i pos
    rfl
  | succ n ih =>
    intro i pos
    simp only [follow_loop]
    by_cases h1 : maxd ≠ 0 ∧ i > maxd
    · rw [if_pos h1, if_pos h1]
    · rw [if_neg h1, if_neg h1]
      by_cases h2 : ¬ InBounds (add_direction pos d)
      · rw [if_pos h2, if_pos h2]
      · rw [if_neg h2, if_neg h2]
        have hocc := h (add_direction pos d)
        unfold occColor at hocc
        cases hg1 : b1.get (add_direction pos d) with
        | some p1 =>
          cases hg2 : b2.get (add_direction pos d) with
          | some p2 =>
            rw [hg1, hg2] at hocc
            simp at hocc
            dsimp only
            rw [hocc]
          | none =>
            rw [hg1, hg2] at hocc
            simp at hocc
        | none =>
          cases hg2 : b2.get (add_direction pos d) with
          | some p2 =>
            rw [hg1, hg2] at hocc
            simp at hocc
          | none =>
            simp only [ih (i+1) (add_direction pos d)]

/-- The move generator only depends on the board through the occupancy colors. -/
theorem get_movements_congr (b1 b2 : Board)
    (h : ∀ p, occColor b1 p = occColor b2 p)
    (pos : Point) (dirs : List Direction) (c : Color) :
    get_movements b1 pos dirs c = get_movements b2 pos dirs c := by
  unfold get_movements follow_direction
  congr 1
  funext dir
  exact follow_loop_congr b1 b2 h dir c dir.reach dir.is_capture_direction
    dir.must_capture 64 1 pos

/-- The attacking color computed by `check_colors` always differs from the
defending color. -/
theorem check_colors_ne (b : Board) (kp : Point) :
    (check_colors b kp).2 ≠ (check_colors b kp).1 := by
  unfold check_colors
  cases hg : b.get kp with
  | none => simp
  | some pc =>
    dsimp only
    by_cases hk : pc.kind = Kind.king
    · rw [if_pos hk]
      cases pc.color <;> simp [Color.other]
    · rw [if_neg hk]
      simp

/-- The check probe is insensitive to replacing pieces of the defending color by
other pieces of the defending color, anywhere except the probed king square:
rays see only occupancy colors, and the kind test only fires on pieces of the
attacking color. -/
theorem is_in_check_congr (b1 b2 : Board) (kp : Point)
    (hkp : b1.get kp = b2.get kp)
    (hocc : ∀ p, occColor b1 p = occColor b2 p)
    (hdiff : ∀ p, b1.get p = b2.get p ∨
      (∃ pc1 pc2, b1.get p = some pc1 ∧ b2.get p = some pc2 ∧
        pc1.color = (check_colors b1 kp).1 ∧ pc2.color = (check_colors b1 kp).1)) :
    is_in_check b1 kp = is_in_check b2 kp := by
  have hcc : check_colors b1 kp = check_colors b2 kp := by
    unfold check_colors
    rw [hkp]
  unfold is_in_check
  rw [← hcc]
  dsimp only
  congr 1
  funext piece_type
  have hmv : get_capture_movements (mkPiece piece_type (check_colors b1 kp).1) b1 kp
        (mkPiece piece_type (check_colors b1 kp).1).directions =
      get_capture_movements (mkPiece piece_type (check_colors b1 kp).1) b2 kp
        (mkPiece piece_type (check_colors b1 kp).1).directions := by
    unfold get_capture_movements
    exact get_movements_congr b1 b2 hocc kp _ _
  rw [← hmv]
  congr 1
  funext pos
  rcases hdiff pos with he | ⟨pc1, pc2, h1, h2, hc1, hc2⟩
  · rw [he]
  · rw [h1, h2]
    dsimp only
    have hne := check_colors_ne b1 kp
    have e1 : (pc1.color == (check_colors b1 kp).2) = false := by
      rw [beq_eq_false_iff_ne]
      rw [hc1]
      exact fun hcon => hne hcon.symm
    have e2 : (pc2.color == (check_colors b1 kp).2) = false := by
      rw [beq_eq_false_iff_ne]
      rw [hc2]
      exact fun hcon => hne hcon.symm
    rw [e1, e2, Bool.and_false, Bool.and_false]

/-- Pointwise equal boards give the same check verdict. -/
theorem is_in_check_ext (b1 b2 : Board) (h : ∀ p, b1.get p = b2.get p) (kp : Point) :
    is_in_check b1 kp = is_in_check b2 kp :=
  is_in_check_congr b1 b2 kp (h kp)
    (fun p => by unfold occColor; rw [h p])
    (fun p => Or.inl (h p))

theorem Board.get_update_square_ne (bd : Board) (v : Option Piece) (p q : Point)
    (h : q ≠ p) : (bd.update_square v p).get q = bd.get q := by
  rw [Board.get_update_square, if_neg (fun hc => h hc.1)]

/-- The board with the move old -> new applied: the destination holds the moving
piece (any previous occupant is overwritten, i.e. captured) and the origin is
cleared.  This is the state on which `move_escapes_check` runs the check
detector whenever the two squares differ. -/
def simulate_board (bd : Board) (old_position new_position : Point) : Board :=
  (bd.update_square (bd.get old_position) new_position).update_square none old_position

/-- The board that `move_escapes_check` builds before querying the check
detector agrees pointwise with `simulate_board` whenever origin and destination
differ. -/
theorem move_escapes_sim_get (bd : Board) (oldp newp : Point) (hne : oldp ≠ newp)
    (q : Point) :
    (((bd.update_square none newp).update_square none oldp).update_square
        ((bd.update_square none newp).get oldp) newp).get q =
      (simulate_board bd oldp newp).get q := by
  have hpiece : (bd.update_square none newp).get oldp = bd.get oldp :=
    Board.get_update_square_ne bd none newp oldp hne
  unfold simulate_board
  rw [hpiece]
  simp only [Board.get_update_square]
  by_cases hn : q = newp ∧ InBounds newp
  · have ho : ¬ (q = oldp ∧ InBounds oldp) := fun hc => hne (hc.1.symm.trans hn.1)
    have hno : ¬ (newp = oldp ∧ InBounds oldp) := fun hc => hne hc.1.symm
    obtain ⟨rfl, hb⟩ := hn
    simp [hb, ho, hno, InBounds] <;> omega
  · by_cases ho : q = oldp ∧ InBounds oldp
    · have hon : ¬ (oldp = newp ∧ InBounds newp) := fun hc => hne hc.1
      obtain ⟨rfl, hb⟩ := ho
      simp [hb, hon, hn, InBounds] <;> omega
    · simp [hn, ho]

/-- Boolean verdict of `move_escapes_check` when the origin holds a piece and
differs from the destination: the check detector evaluated on the simulated
board, at the destination for a king move and at the cached king position
otherwise. -/
theorem move_escapes_check_fst (bd : Board) (player : Player) (newp oldp : Point)
    (piece : Piece) (hP : bd.get oldp = some piece) (hne : oldp ≠ newp) :
    (move_escapes_check bd player newp oldp).1 =
      !(is_in_check (simulate_board bd oldp newp)
        (if piece.kind = Kind.king then newp else player.king_position)) := by
  unfold move_escapes_check remove_piece
  dsimp only
  have hpiece : (bd.update_square none newp).get oldp = bd.get oldp :=
    Board.get_update_square_ne bd none newp oldp hne
  rw [hpiece, hP]
  dsimp only
  have hpw : ∀ q, (((bd.update_square none newp).update_square none oldp).update_square
      (some piece) newp).get q = (simulate_board bd oldp newp).get q := by
    intro q
    have hsim := move_escapes_sim_get bd oldp newp hne q
    rw [hpiece, hP] at hsim
    exact hsim
  have hext := is_in_check_ext _ _ hpw
  by_cases hk : piece.kind = Kind.king
  · rw [if_pos hk, if_pos hk]
    rw [hext]
  · rw [if_neg hk, if_neg hk]
    rw [hext]

/-- Board restoration of `move_escapes_check`: when origin and destination
differ, the returned board agrees with the input board at every square. -/
theorem move_escapes_check_board_restored (bd : Board) (player : Player)
    (newp oldp : Point) (hne : oldp ≠ newp) (q : Point) :
    ((move_escapes_check bd player newp oldp).2.1).get q = bd.get q := by
  unfold move_escapes_check remove_piece
  dsimp only
  have hpiece : (bd.update_square none newp).get oldp = bd.get oldp :=
    Board.get_update_square_ne bd none newp oldp hne
  rw [hpiece]
  simp only [Board.get_update_square]
  by_cases ho : q = oldp ∧ InBounds oldp
  · have hon : ¬ (oldp = newp ∧ InBounds newp) := fun hc => hne hc.1
    obtain ⟨rfl, hb⟩ := ho
    simp [hb, hon, InBounds] <;> omega
  · by_cases hn : q = newp ∧ InBounds newp
    · have hno : ¬ (newp = oldp ∧ InBounds oldp) := fun hc => hne hc.1.symm
      obtain ⟨rfl, hb⟩ := hn
      simp [hb, hno, ho, InBounds] <;> omega
    · simp [ho, hn]

/-- Player restoration of `move_escapes_check`: the returned player equals the
input player, provided the cached king position already pointed at the origin
whenever the moving piece is a king (the source restores the cache to the
origin square, not to its previous value). -/
theorem move_escapes_check_player_restored (bd : Board) (player : Player)
    (newp oldp : Point) (hne : oldp ≠ newp)
    (hking : ∀ pc, bd.get oldp = some pc → pc.kind = Kind.king →
      player.king_position = oldp) :
    (move_escapes_check bd player newp oldp).2.2 = player := by
  unfold move_escapes_check remove_piece
  dsimp only
  have hpiece : (bd.update_square none newp).get oldp = bd.get oldp :=
    Board.get_update_square_ne bd none newp oldp hne
  rw [hpiece]
  cases hg : bd.get oldp with
  | none => rfl
  | some pc =>
    dsimp only
    by_cases hk : pc.kind = Kind.king
    · rw [if_pos hk]
      have hkp : player.king_position = oldp := hking pc hg hk
      cases player
      dsimp only at hkp ⊢
      rw [hkp]
    · rw [if_neg hk]

/-! ## Claim C3 -/

/-- C3 (amended): for every board, player, and pair of distinct in-bounds
positions (old, new) with a piece at old, `move_escapes_check` leaves the board
contents at every square unchanged, and leaves the player's cached king
position unchanged provided the cache pointed at old whenever the moved piece
is a king; the unamended claim fails when old = new (the board is corrupted,
see the counterexample) and when a king is simulated from a square other than
the cached one (the source restores the cache to the origin square, not to its
previous value). -/
theorem c3_simulation_restores (bd : Board) (player : Player) (oldp newp : Point)
    (piece : Piece) (hold : bd.get oldp = some piece) (hne : oldp ≠ newp)
    (hking : piece.kind = Kind.king → player.king_position = oldp) :
    (∀ q : Point, ((move_escapes_check bd player newp oldp).2.1).get q = bd.get q) ∧
      (move_escapes_check bd player newp oldp).2.2 = player :=
  ⟨fun q => move_escapes_check_board_restored bd player newp oldp hne q,
   move_escapes_check_player_restored bd player newp oldp hne
     (fun pc hpc hk => by
       rw [hold] at hpc
       cases hpc
       exact hking hk)⟩

/-- C3 counterexample: with old = new = a2 (which is in bounds and holds the
white a-pawn on the initial board), `move_escapes_check` erases the pawn: the
returned board differs from the input board at that square, refuting the claim
as stated for arbitrary position pairs. -/
theorem c3_counterexample :
    ((move_escapes_check initial_board (mkPlayer ("w") Color.white)
        ((1 : Int), (2 : Int)) ((1 : Int), (2 : Int))).2.1).get ((1 : Int), (2 : Int)) ≠
      initial_board.get ((1 : Int), (2 : Int)) := by
  decide

/-- C3 witness: the amended theorem applied to the white a-pawn move a2 -> a3
on the initial board. -/
theorem c3_witness :
    (initial_board.get ((1 : Int), (2 : Int)) = some (mkPiece Kind.pawn Color.white) ∧
      ((1 : Int), (2 : Int)) ≠ ((1 : Int), (3 : Int))) ∧
    ((∀ q : Point, ((move_escapes_check initial_board (mkPlayer ("w") Color.white)
        ((1 : Int), (3 : Int)) ((1 : Int), (2 : Int))).2.1).get q = initial_board.get q) ∧
      (move_escapes_check initial_board (mkPlayer ("w") Color.white)
        ((1 : Int), (3 : Int)) ((1 : Int), (2 : Int))).2.2 = mkPlayer ("w") Color.white) :=
  ⟨⟨by decide, by decide⟩,
   c3_simulation_restores initial_board (mkPlayer ("w") Color.white)
     ((1 : Int), (2 : Int)) ((1 : Int), (3 : Int)) (mkPiece Kind.pawn Color.white)
     (by decide) (by decide) (fun hk => absurd hk (by decide))⟩

/-! ## Claim C10 -/

/-- C10: `get_legal_moves` is only defined when the queried square holds a
piece: on an in-bounds empty square the unwrap of the absent occupant fails
(modelled as the `none` result), rather than producing an empty list of
destinations. -/
theorem c10_requires_occupant (b : Board) (p : Point) (player : Player)
    (hin : index_within_board p = true) (hempty : b.get p = none) :
    get_legal_moves b p player = none := by
  unfold get_legal_moves
  rw [hempty]

/-- C10 witness: the empty square d4 of the initial board. -/
theorem c10_witness :
    (index_within_board ((4 : Int), (4 : Int)) = true ∧
      initial_board.get ((4 : Int), (4 : Int)) = none) ∧
    get_legal_moves initial_board ((4 : Int), (4 : Int)) (mkPlayer ("w") Color.white) = none :=
  ⟨⟨by decide, by decide⟩,
   c10_requires_occupant initial_board ((4 : Int), (4 : Int)) (mkPlayer ("w") Color.white)
     (by decide) (by decide)⟩

/-! ## Claim C9 -/

/-- C9 counterexample: `check_input_string` itself terminates the process on
the token "q" (modelled by the `exit` result), so the core validation function
does not return a Success or Failure value on every input and quit handling is
not confined to the surrounding I/O layer. -/
theorem c9_counterexample : check_input_string ("q") = InputResult.exit := by
  decide

/-- C9 (amended): `check_input_string` terminates the process exactly on the
tokens quit, q and exit (case-insensitive); on every other input it returns a
Success or Failure value. -/
theorem c9_exit_characterisation (s : String) :
    check_input_string s = InputResult.exit ↔
      (string_lower s = "quit" ∨ string_lower s = "q" ∨ string_lower s = "exit") := by
  unfold check_input_string
  by_cases h : string_lower s = "quit" ∨ string_lower s = "q" ∨ string_lower s = "exit"
  · rw [if_pos h]
    simp [h]
  · rw [if_neg h]
    simp only [h, iff_false]
    by_cases hlen : s.length ≠ 2
    · rw [if_pos hlen]
      simp
    · rw [if_neg hlen]
      cases hl : s.toList with
      | nil => simp
      | cons x t =>
        cases t with
        | nil => simp
        | cons y t2 =>
          cases t2 with
          | nil =>
            dsimp only
            by_cases hd : ¬ y.isDigit
            · rw [if_pos hd]
              simp
            · rw [if_neg hd]
              simp
          | cons z t3 => simp

/-! ## Claim C8 -/

/-- C8 (code evaluation at the failing input): the pipeline rejects the
uppercase input "A1" (the guard in `convert_input` tests the character before
lowering it, so its Failure branch fires), while the lowercase "a1" is
accepted and converted to the 1-based position (1, 1).  The claim and the
spec promise case-insensitive acceptance, which the dead lowering inside the
subsequent `find` call shows to be the intent. -/
theorem c8_uppercase_rejected :
    input_pipeline ("A1") =
        InputResult.failure ("Denne indeksen, A, er ikke gyldig.") ∧
      input_pipeline ("a1") = InputResult.success ((1 : Int), (1 : Int)) := by
  constructor
  · decide
  · decide

/-! ## Claim C2 -/

/-- Inner hit test of `is_in_check`, as an existential. -/
theorem check_hit_iff (b : Board) (k : Kind) (opp : Color) (pos : Point) :
    ((match b.get pos with
      | some opp_piece => opp_piece.kind == k && opp_piece.color == opp
      | none => false) = true) ↔
      ∃ pc, b.get pos = some pc ∧ pc.kind = k ∧ pc.color = opp := by
  cases h : b.get pos <;> simp [h]

/-- C2: with a king on the probed square, `is_in_check` reports check exactly
when some piece kind K, probed from the king's square as a hypothetical piece
of the defending king's color restricted to its capture-allowed directions,
reaches a square that holds an enemy piece of that same kind K. -/
theorem c2_check_iff (b : Board) (kp : Point) (kg : Piece)
    (hk : b.get kp = some kg) (hkind : kg.kind = Kind.king) :
    is_in_check b kp = true ↔
      ∃ k ∈ ALL_PIECES,
        ∃ pos ∈ get_capture_movements (mkPiece k kg.color) b kp
          (mkPiece k kg.color).directions,
          ∃ pc, b.get pos = some pc ∧ pc.kind = k ∧ pc.color = kg.color.other := by
  unfold is_in_check
  have hcc : check_colors b kp = (kg.color, kg.color.other) := by
    unfold check_colors
    rw [hk]
    dsimp only
    rw [if_pos hkind]
  rw [hcc]
  dsimp only
  simp only [List.any_eq_true, check_hit_iff, exists_prop]

/-- C2 witness: the corner position with a white king on a1, a black rook on
a8 and a black king on h8. -/
def board_rook_check : Board :=
  create_board (("r......k".toList) ++ List.replicate 48 '.' ++ ("K.......".toList))

theorem c2_witness :
    (board_rook_check.get ((1 : Int), (1 : Int)) = some (mkPiece Kind.king Color.white) ∧
      (mkPiece Kind.king Color.white).kind = Kind.king) ∧
    (is_in_check board_rook_check ((1 : Int), (1 : Int)) = true ↔
      ∃ k ∈ ALL_PIECES,
        ∃ pos ∈ get_capture_movements (mkPiece k (mkPiece Kind.king Color.white).color)
          board_rook_check ((1 : Int), (1 : Int))
          (mkPiece k (mkPiece Kind.king Color.white).color).directions,
          ∃ pc, board_rook_check.get pos = some pc ∧ pc.kind = k ∧
            pc.color = (mkPiece Kind.king Color.white).color.other) :=
  ⟨⟨by decide, by decide⟩,
   c2_check_iff board_rook_check ((1 : Int), (1 : Int)) (mkPiece Kind.king Color.white)
     (by decide) (by decide)⟩

/-! ## Claim C4 -/

/-- C4: a player (whose cached king position holds their king) is reported
checkmated exactly when their king is currently in check and the
legal-destinations computation for the king's square returns the empty list;
only that one square is consulted. -/
theorem c4_checkmate_iff (b : Board) (player : Player) (kg : Piece)
    (hatk : b.get player.king_position = some kg) (hkind : kg.kind = Kind.king)
    (hcol : kg.color = player.color) :
    is_check_mate b [player] = true ↔
      (is_in_check b player.king_position = true ∧
        get_legal_moves b player.king_position player = some []) := by
  simp [is_check_mate]

/-- C4 witness: white on the initial board (in neither check nor checkmate,
with the cache pointing at the king square e1). -/
theorem c4_witness :
    (initial_board.get (mkPlayer ("w") Color.white).king_position =
        some (mkPiece Kind.king Color.white) ∧
      (mkPiece Kind.king Color.white).kind = Kind.king ∧
      (mkPiece Kind.king Color.white).color = (mkPlayer ("w") Color.white).color) ∧
    (is_check_mate initial_board [mkPlayer ("w") Color.white] = true ↔
      (is_in_check initial_board (mkPlayer ("w") Color.white).king_position = true ∧
        get_legal_moves initial_board (mkPlayer ("w") Color.white).king_position
          (mkPlayer ("w") Color.white) = some [])) :=
  ⟨⟨by decide, by decide, by decide⟩,
   c4_checkmate_iff initial_board (mkPlayer ("w") Color.white)
     (mkPiece Kind.king Color.white) (by decide) (by decide) (by decide)⟩

/-! ## Claim C1 -/

/-- C1: for a board, player, and in-bounds position P holding a piece of the
player's color, a destination D is in the list returned by `get_legal_moves`
exactly when D is produced by the raw move generator and the check detector,
run on the board with the move P -> D simulated (and, for a king move, on the
destination as king square), finds no check. -/
theorem c1_legal_moves_iff (b : Board) (player : Player) (P : Point) (piece : Piece)
    (hin : index_within_board P = true) (hP : b.get P = some piece)
    (hcol : piece.color = player.color) (L : List Point)
    (hL : get_legal_moves b P player = some L) (D : Point) :
    D ∈ L ↔
      (D ∈ get_movements b P piece.directions piece.color ∧
        is_in_check (simulate_board b P D)
          (if piece.kind = Kind.king then D else player.king_position) = false) := by
  unfold get_legal_moves at hL
  rw [hP] at hL
  dsimp only at hL
  have hLeq : L = (get_movements b P piece.directions piece.color).filter
      (fun move => (move_escapes_check b player move P).1) := by
    cases hL
    rfl
  subst hLeq
  rw [List.mem_filter]
  constructor
  · rintro ⟨hmv, hpred⟩
    refine ⟨hmv, ?_⟩
    have hne : P ≠ D :=
      (mem_get_movements_ne_self b P piece.directions piece hP D hmv).symm
    rw [move_escapes_check_fst b player D P piece hP hne] at hpred
    rwa [Bool.not_eq_true'] at hpred
  · rintro ⟨hmv, hchk⟩
    refine ⟨hmv, ?_⟩
    have hne : P ≠ D :=
      (mem_get_movements_ne_self b P piece.directions piece hP D hmv).symm
    rw [move_escapes_check_fst b player D P piece hP hne]
    rw [hchk]
    rfl

/-- C1 witness: the white e-pawn on the initial board; e3 is legal and its
simulation clears check. -/
theorem c1_witness :
    (index_within_board ((5 : Int), (2 : Int)) = true ∧
      initial_board.get ((5 : Int), (2 : Int)) = some (mkPiece Kind.pawn Color.white) ∧
      (mkPiece Kind.pawn Color.white).color = (mkPlayer ("w") Color.white).color ∧
      get_legal_moves initial_board ((5 : Int), (2 : Int)) (mkPlayer ("w") Color.white) =
        some [((5 : Int), (3 : Int)), ((5 : Int), (4 : Int))]) ∧
    (((5 : Int), (3 : Int)) ∈ [((5 : Int), (3 : Int)), ((5 : Int), (4 : Int))] ↔
      (((5 : Int), (3 : Int)) ∈ get_movements initial_board ((5 : Int), (2 : Int))
          (mkPiece Kind.pawn Color.white).directions (mkPiece Kind.pawn Color.white).color ∧
        is_in_check
          (simulate_board initial_board ((5 : Int), (2 : Int)) ((5 : Int), (3 : Int)))
          (if (mkPiece Kind.pawn Color.white).kind = Kind.king then ((5 : Int), (3 : Int))
           else (mkPlayer ("w") Color.white).king_position) = false)) :=
  ⟨⟨by decide, by decide, by decide, by decide⟩,
   c1_legal_moves_iff initial_board (mkPlayer ("w") Color.white) ((5 : Int), (2 : Int))
     (mkPiece Kind.pawn Color.white) (by decide) (by decide) (by decide)
     [((5 : Int), (3 : Int)), ((5 : Int), (4 : Int))] (by decide) ((5 : Int), (3 : Int))⟩

/-! ## Claim C5 -/

/-- C5: along any single direction ray of a sliding piece (rook, bishop or
queen), every yielded destination has only empty squares strictly between it
and the origin (nothing beyond the first occupied square is ever yielded), and
a yielded destination that is occupied (a capture) is the last square of the
ray.  The two facts are proved for arbitrary ray parameters, which covers the
three sliding kinds quantified here. -/
theorem c5_ray_stop (b : Board) (pos : Point) (k : Kind)
    (hk : k = Kind.rook ∨ k = Kind.bishop ∨ k = Kind.queen) (c : Color)
    (d : Direction) (hd : d ∈ (mkPiece k c).directions) (q : Point)
    (hq : q ∈ follow_direction b pos d (mkPiece k c).color d.reach
      d.is_capture_direction d.must_capture) :
    (∃ n : Nat, 1 ≤ n ∧ q = stepN pos d n ∧
      ∀ j : Nat, 1 ≤ j → j < n → b.get (stepN pos d j) = none) ∧
    (b.get q ≠ none →
      (follow_direction b pos d (mkPiece k c).color d.reach d.is_capture_direction
        d.must_capture).getLast? = some q) := by
  constructor
  · obtain ⟨n, h1, h2, h3, _, _⟩ :=
      mem_follow_loop_ray b d (mkPiece k c).color d.reach d.is_capture_direction
        d.must_capture 64 1 pos q hq
    exact ⟨n, h1, h2, fun j hj1 hj2 => (h3 j hj1 hj2).1⟩
  · intro hocc
    exact (follow_direction_capture_last b pos d (mkPiece k c).color d.reach
      d.is_capture_direction d.must_capture q hq hocc).1

/-- C5 witness board: a white rook on a1 and a black pawn on a3. -/
def board_rook_ray : Board :=
  create_board (List.replicate 40 '.' ++ ("p.......".toList) ++ List.replicate 8 '.'
    ++ ("R.......".toList))

theorem c5_witness :
    ((Kind.rook = Kind.rook ∨ Kind.rook = Kind.bishop ∨ Kind.rook = Kind.queen) ∧
      (⟨0, 1, true, false, 0⟩ : Direction) ∈ (mkPiece Kind.rook Color.white).directions ∧
      ((1 : Int), (3 : Int)) ∈ follow_direction board_rook_ray ((1 : Int), (1 : Int))
        (⟨0, 1, true, false, 0⟩ : Direction) (mkPiece Kind.rook Color.white).color
        (⟨0, 1, true, false, 0⟩ : Direction).reach
        (⟨0, 1, true, false, 0⟩ : Direction).is_capture_direction
        (⟨0, 1, true, false, 0⟩ : Direction).must_capture) ∧
    ((∃ n : Nat, 1 ≤ n ∧ ((1 : Int), (3 : Int)) =
        stepN ((1 : Int), (1 : Int)) (⟨0, 1, true, false, 0⟩ : Direction) n ∧
        ∀ j : Nat, 1 ≤ j → j < n →
          board_rook_ray.get (stepN ((1 : Int), (1 : Int))
            (⟨0, 1, true, false, 0⟩ : Direction) j) = none) ∧
      (board_rook_ray.get ((1 : Int), (3 : Int)) ≠ none →
        (follow_direction board_rook_ray ((1 : Int), (1 : Int))
          (⟨0, 1, true, false, 0⟩ : Direction) (mkPiece Kind.rook Color.white).color
          (⟨0, 1, true, false, 0⟩ : Direction).reach
          (⟨0, 1, true, false, 0⟩ : Direction).is_capture_direction
          (⟨0, 1, true, false, 0⟩ : Direction).must_capture).getLast? =
            some ((1 : Int), (3 : Int)))) :=
  ⟨⟨Or.inl rfl, by decide, by decide⟩,
   c5_ray_stop board_rook_ray ((1 : Int), (1 : Int)) Kind.rook (Or.inl rfl) Color.white
     (⟨0, 1, true, false, 0⟩ : Direction) (by decide) ((1 : Int), (3 : Int)) (by decide)⟩

/-! ## Claim C6 -/

/-- One unfolding step of the ray walk. -/
theorem follow_loop_step (b : Board) (d : Direction) (c : Color) (maxd : Int)
    (cap must : Bool) (n : Nat) (i : Int) (pos : Point) :
    follow_loop b d c maxd cap must (n+1) i pos =
      if maxd ≠ 0 ∧ i > maxd then []
      else if ¬ InBounds (add_direction pos d) then []
      else
        match b.get (add_direction pos d) with
        | some piece =>
          if (piece.color == c || !cap) then [] else [add_direction pos d]
        | none =>
          if !must then
            add_direction pos d ::
              follow_loop b d c maxd cap must n (i+1) (add_direction pos d)
          else follow_loop b d c maxd cap must n (i+1) (add_direction pos d) := by
  rw [follow_loop]

/-- A capture-only ray of reach 1 yields nothing when its target square is
off-board, empty, or held by a piece of the moving color. -/
theorem follow_loop_diag_nil (b : Board) (d : Direction) (c : Color) (n : Nat)
    (pos : Point) (hd : ∀ pc, b.get (add_direction pos d) = some pc → pc.color = c) :
    follow_loop b d c 1 true true (n+1) 1 pos = [] := by
  rw [follow_loop_step]
  rw [if_neg (by norm_num)]
  by_cases hb : ¬ InBounds (add_direction pos d)
  · rw [if_pos hb]
  · rw [if_neg hb]
    cases hg : b.get (add_direction pos d) with
    | some pc =>
      dsimp only
      rw [if_pos (by simp [hd pc hg])]
    | none =>
      dsimp only
      rw [if_neg (by norm_num)]
      cases n with
      | zero => rfl
      | succ m =>
        rw [follow_loop_step]
        rw [if_pos (by norm_num)]

/-- C6: an unmoved pawn with both squares straight ahead empty and in bounds,
and no enemy piece on either forward diagonal, generates exactly the one- and
two-square forward destinations and nothing else; once its reach is cut to 1
(which `apply_effects` does via `change_reach` after the pawn's first committed
move), the same situation generates only the one-square destination. -/
theorem c6_pawn_moves (b : Board) (pos : Point) (c : Color)
    (hf1 : InBounds (pos.1, pos.2 + c.val)) (he1 : b.get (pos.1, pos.2 + c.val) = none)
    (hf2 : InBounds (pos.1, pos.2 + 2 * c.val))
    (he2 : b.get (pos.1, pos.2 + 2 * c.val) = none)
    (hd1 : ∀ pc, b.get (pos.1 + 1, pos.2 + c.val) = some pc → pc.color = c)
    (hd2 : ∀ pc, b.get (pos.1 - 1, pos.2 + c.val) = some pc → pc.color = c) :
    get_movements b pos (mkPiece Kind.pawn c).directions c =
        [(pos.1, pos.2 + c.val), (pos.1, pos.2 + 2 * c.val)] ∧
      get_movements b pos (change_reach (mkPiece Kind.pawn c) 1).directions c =
        [(pos.1, pos.2 + c.val)] := by
  have ha1 : add_direction pos ⟨0, 1 * c.val, false, false, 2⟩ = (pos.1, pos.2 + c.val) := by
    unfold add_direction
    exact Prod.ext (by ring) (by ring)
  have ha1' : add_direction pos ⟨0, 1 * c.val, false, false, 1⟩ = (pos.1, pos.2 + c.val) := by
    unfold add_direction
    exact Prod.ext (by ring) (by ring)
  have ha2 : add_direction (pos.1, pos.2 + c.val) ⟨0, 1 * c.val, false, false, 2⟩ =
      (pos.1, pos.2 + 2 * c.val) := by
    unfold add_direction
    exact Prod.ext (by ring) (by ring)
  have hdga : add_direction pos ⟨1, 1 * c.val, true, true, 1⟩ = (pos.1 + 1, pos.2 + c.val) := by
    unfold add_direction
    exact Prod.ext (by ring) (by ring)
  have hdgb : add_direction pos ⟨-1, 1 * c.val, true, true, 1⟩ = (pos.1 - 1, pos.2 + c.val) := by
    unfold add_direction
    exact Prod.ext (by ring) (by ring)
  have hray2 : follow_loop b ⟨0, 1 * c.val, false, false, 2⟩ c 2 false false 64 1 pos =
      [(pos.1, pos.2 + c.val), (pos.1, pos.2 + 2 * c.val)] := by
    rw [follow_loop_step, if_neg (by norm_num), ha1, if_neg (not_not_intro hf1), he1]
    dsimp only
    rw [if_pos (by norm_num)]
    rw [follow_loop_step, if_neg (by norm_num), ha2, if_neg (not_not_intro hf2), he2]
    dsimp only
    rw [if_pos (by norm_num)]
    rw [follow_loop_step, if_pos (by norm_num)]
  have hray1 : follow_loop b ⟨0, 1 * c.val, false, false, 1⟩ c 1 false false 64 1 pos =
      [(pos.1, pos.2 + c.val)] := by
    rw [follow_loop_step, if_neg (by norm_num), ha1', if_neg (not_not_intro hf1), he1]
    dsimp only
    rw [if_pos (by norm_num)]
    rw [follow_loop_step, if_pos (by norm_num)]
  have hdiag1 : follow_loop b ⟨1, 1 * c.val, true, true, 1⟩ c 1 true true 64 1 pos = [] := by
    apply follow_loop_diag_nil
    rw [hdga]
    exact hd1
  have hdiag2 : follow_loop b ⟨-1, 1 * c.val, true, true, 1⟩ c 1 true true 64 1 pos = [] := by
    apply follow_loop_diag_nil
    rw [hdgb]
    exact hd2
  constructor
  · show get_movements b pos
      [⟨0, 1 * c.val, false, false, 2⟩, ⟨1, 1 * c.val, true, true, 1⟩,
        ⟨-1, 1 * c.val, true, true, 1⟩] c = _
    unfold get_movements follow_direction
    simp only [List.flatMap_cons, List.flatMap_nil, List.append_nil]
    rw [hray2, hdiag1, hdiag2]
    rfl
  · show get_movements b pos
      [⟨0, 1 * c.val, false, false, 1⟩, ⟨1, 1 * c.val, true, true, 1⟩,
        ⟨-1, 1 * c.val, true, true, 1⟩] c = _
    unfold get_movements follow_direction
    simp only [List.flatMap_cons, List.flatMap_nil, List.append_nil]
    rw [hray1, hdiag1, hdiag2]
    rfl

/-- C6 witness: the white e-pawn on the initial board, before and after its
reach is cut. -/
theorem c6_witness :
    (InBounds (((5 : Int), (2 : Int)).1, ((5 : Int), (2 : Int)).2 + Color.white.val) ∧
      initial_board.get (((5 : Int), (2 : Int)).1,
        ((5 : Int), (2 : Int)).2 + Color.white.val) = none ∧
      InBounds (((5 : Int), (2 : Int)).1, ((5 : Int), (2 : Int)).2 + 2 * Color.white.val) ∧
      initial_board.get (((5 : Int), (2 : Int)).1,
        ((5 : Int), (2 : Int)).2 + 2 * Color.white.val) = none) ∧
    (get_movements initial_board ((5 : Int), (2 : Int))
        (mkPiece Kind.pawn Color.white).directions Color.white =
        [(((5 : Int), (2 : Int)).1, ((5 : Int), (2 : Int)).2 + Color.white.val),
         (((5 : Int), (2 : Int)).1, ((5 : Int), (2 : Int)).2 + 2 * Color.white.val)] ∧
      get_movements initial_board ((5 : Int), (2 : Int))
        (change_reach (mkPiece Kind.pawn Color.white) 1).directions Color.white =
        [(((5 : Int), (2 : Int)).1, ((5 : Int), (2 : Int)).2 + Color.white.val)]) :=
  ⟨⟨by decide, by decide, by decide, by decide⟩,
   c6_pawn_moves initial_board ((5 : Int), (2 : Int)) Color.white
     (by decide) (by decide) (by decide) (by decide)
     (by
       intro pc h
       rw [(by decide : initial_board.get (((5 : Int), (2 : Int)).1 + 1,
        ((5 : Int), (2 : Int)).2 + Color.white.val) = none)] at h
       cases h)
     (by
       intro pc h
       rw [(by decide : initial_board.get (((5 : Int), (2 : Int)).1 - 1,
        ((5 : Int), (2 : Int)).2 + Color.white.val) = none)] at h
       cases h)⟩

/-! ## Claim C7 : game states, validated move commits, and the king cache -/

theorem Color.other_ne (c : Color) : c.other ≠ c := by
  cases c <;> simp [Color.other]

theorem Color.other_other (c : Color) : c.other.other = c := by
  cases c <;> rfl

theorem mkPiece_color (k : Kind) (c : Color) : (mkPiece k c).color = c := rfl

theorem mkPiece_kind (k : Kind) (c : Color) : (mkPiece k c).kind = k := rfl

theorem change_reach_color (pc : Piece) (r : Int) : (change_reach pc r).color = pc.color := rfl

theorem change_reach_kind (pc : Piece) (r : Int) : (change_reach pc r).kind = pc.kind := rfl

theorem change_reach_idem (pc : Piece) (r : Int) :
    change_reach (change_reach pc r) r = change_reach pc r := by
  unfold change_reach
  simp [List.map_map]

theorem promo_kind_ne_king (choice : PromoKind) : choice.toKind ≠ Kind.king := by
  cases choice <;> simp [PromoKind.toKind]

/-- Pieces as they occur on reachable boards: freshly constructed, or a pawn
whose reach has been cut to 1 after its first move. -/
def ValidPiece (pc : Piece) : Prop :=
  pc = mkPiece pc.kind pc.color ∨
    (pc.kind = Kind.pawn ∧ pc = change_reach (mkPiece Kind.pawn pc.color) 1)

theorem valid_change_reach (pc : Piece) (h : ValidPiece pc) (hk : pc.kind = Kind.pawn) :
    ValidPiece (change_reach pc 1) := by
  right
  refine ⟨by rw [change_reach_kind, hk], ?_⟩
  rcases h with h | ⟨_, h⟩
  · rw [change_reach_color]
    nth_rewrite 1 [h]
    rw [hk]
  · rw [change_reach_color]
    nth_rewrite 1 [h]
    rw [change_reach_idem]

def BoardWF (b : Board) : Prop :=
  ∀ (q : Point) (pc : Piece), b.get q = some pc → ValidPiece pc

theorem string_to_piece_cases (ch : Char) :
    string_to_piece ch = none ∨ ∃ k c, string_to_piece ch = some (mkPiece k c) := by
  unfold string_to_piece
  dsimp only
  split
  · exact Or.inl rfl
  · exact Or.inr ⟨_, _, rfl⟩
  · exact Or.inr ⟨_, _, rfl⟩
  · exact Or.inr ⟨_, _, rfl⟩
  · exact Or.inr ⟨_, _, rfl⟩
  · exact Or.inr ⟨_, _, rfl⟩
  · exact Or.inr ⟨_, _, rfl⟩
  · exact Or.inl rfl

theorem string_to_piece_valid (ch : Char) (pc : Piece)
    (h : string_to_piece ch = some pc) : ValidPiece pc := by
  rcases string_to_piece_cases ch with hnone | ⟨k, c, hkc⟩
  · rw [hnone] at h
    cases h
  · rw [hkc] at h
    cases h
    exact Or.inl rfl

theorem create_board_wf (s : List Char) : BoardWF (create_board s) := by
  intro q pc h
  unfold Board.get at h
  split at h
  · exact string_to_piece_valid _ _ h
  · cases h

/-- Combined state of `run_chess`: board, both players, and whose turn it is. -/
structure GameState where
  board : Board
  white : Player
  black : Player
  turn : Color

def GameState.player (s : GameState) : Color → Player
  | Color.white => s.white
  | Color.black => s.black

/-- One committed turn: `take_turn` calls `move_piece` (which applies the side
effects) on the mover, then the loop hands the turn to the other player. -/
def GameState.commit (s : GameState) (oldp newp : Point) (choice : PromoKind) :
    GameState :=
  let bp := move_piece s.board oldp newp (s.player s.turn) choice
  { board := bp.1,
    white := if s.turn = Color.white then bp.2 else s.white,
    black := if s.turn = Color.black then bp.2 else s.black,
    turn := s.turn.other }

/-- A validated move commit, as produced by one iteration of the turn loop:
`validate_piece_to_move` guarantees the origin holds a piece of the mover's
color with a nonempty legal-move list, `validate_place_to_move_to` guarantees
the destination is among the legal moves, and `take_turn` commits. -/
inductive Step : GameState → GameState → Prop
  | move (s : GameState) (oldp newp : Point) (choice : PromoKind) (piece : Piece)
      (hold : s.board.get oldp = some piece)
      (hcolor : piece.color = s.turn)
      (hlegal : ∃ L, get_legal_moves s.board oldp (s.player s.turn) = some L ∧ newp ∈ L) :
      Step s (s.commit oldp newp choice)

def Reachable (s0 s : GameState) : Prop := Relation.ReflTransGen Step s0 s

/-- Initial state of `run_chess`: the default board, the two freshly
constructed players, white to move. -/
def init_state (name1 name2 : String) : GameState :=
  ⟨initial_board, mkPlayer name1 Color.white, mkPlayer name2 Color.black, Color.white⟩

/-- The invariant carried through the game: each cached king position holds the
corresponding king, kings are unique per color, every piece on the board is a
constructible piece value, and the player who is not to move is not in check. -/
def GameInv (s : GameState) : Prop :=
  (∀ c : Color, ∃ kg : Piece, s.board.get ((s.player c).king_position) = some kg ∧
    kg.kind = Kind.king ∧ kg.color = c) ∧
  (∀ (c : Color) (q : Point) (pc : Piece), s.board.get q = some pc →
    pc.kind = Kind.king → pc.color = c → q = (s.player c).king_position) ∧
  BoardWF s.board ∧
  is_in_check s.board ((s.player s.turn.other).king_position) = false

theorem dirs_nonzero (k : Kind) (c : Color) :
    ((mkPiece k c).directions.all (fun d => !(d.x == 0 && d.y == 0))) = true := by
  cases k <;> cases c <;> decide

theorem moved_pawn_dirs_nonzero (c : Color) :
    ((change_reach (mkPiece Kind.pawn c) 1).directions.all
      (fun d => !(d.x == 0 && d.y == 0))) = true := by
  cases c <;> decide

theorem capture_dirs_symm (k : Kind) (c : Color) :
    ((mkPiece k c).directions.all (fun d => !d.is_capture_direction ||
      (mkPiece k c.other).directions.any (fun e =>
        e.x == -d.x && e.y == -d.y && e.is_capture_direction && (e.reach == d.reach)))) =
      true := by
  cases k <;> cases c <;> decide

theorem moved_pawn_capture_dirs_symm (c : Color) :
    ((change_reach (mkPiece Kind.pawn c) 1).directions.all
      (fun d => !d.is_capture_direction ||
      (mkPiece Kind.pawn c.other).directions.any (fun e =>
        e.x == -d.x && e.y == -d.y && e.is_capture_direction && (e.reach == d.reach)))) =
      true := by
  cases c <;> decide

/-- Every capture-allowed direction of a constructible piece is nonzero and has
a mirror direction (negated vector, same reach, capture-allowed) in the
direction set of the freshly constructed piece of the same kind and the
opposite color. -/
theorem valid_capture_dir_symm (pc : Piece) (hval : ValidPiece pc)
    (d : Direction) (hd : d ∈ pc.directions) (hcap : d.is_capture_direction = true) :
    (¬ (d.x = 0 ∧ d.y = 0)) ∧
    ∃ e ∈ (mkPiece pc.kind pc.color.other).directions,
      e.x = -d.x ∧ e.y = -d.y ∧ e.is_capture_direction = true ∧ e.reach = d.reach := by
  rcases hval with h | ⟨hk, h⟩
  · have hd' : d ∈ (mkPiece pc.kind pc.color).directions := by
      rw [← h]
      exact hd
    have h1 := List.all_eq_true.mp (dirs_nonzero pc.kind pc.color) d hd'
    have h2 := List.all_eq_true.mp (capture_dirs_symm pc.kind pc.color) d hd'
    refine ⟨?_, ?_⟩
    · rintro ⟨hx, hy⟩
      simp [hx, hy] at h1
    · rw [hcap] at h2
      simp only [Bool.not_true, Bool.false_or, List.any_eq_true] at h2
      obtain ⟨e, he, hb⟩ := h2
      simp only [Bool.and_eq_true, beq_iff_eq] at hb
      exact ⟨e, he, hb.1.1.1, hb.1.1.2, hb.1.2, hb.2⟩
  · have hd' : d ∈ (change_reach (mkPiece Kind.pawn pc.color) 1).directions := by
      rw [← h]
      exact hd
    have h1 := List.all_eq_true.mp (moved_pawn_dirs_nonzero pc.color) d hd'
    have h2 := List.all_eq_true.mp (moved_pawn_capture_dirs_symm pc.color) d hd'
    refine ⟨?_, ?_⟩
    · rintro ⟨hx, hy⟩
      simp [hx, hy] at h1
    · rw [hcap] at h2
      simp only [Bool.not_true, Bool.false_or, List.any_eq_true] at h2
      obtain ⟨e, he, hb⟩ := h2
      simp only [Bool.and_eq_true, beq_iff_eq] at hb
      rw [hk]
      exact ⟨e, he, hb.1.1.1, hb.1.1.2, hb.1.2, hb.2⟩

theorem mem_get_movements_inBounds (b : Board) (pos : Point) (dirs : List Direction)
    (c : Color) (q : Point) (hq : q ∈ get_movements b pos dirs c) : InBounds q := by
  simp only [get_movements, follow_direction, List.mem_flatMap] at hq
  obtain ⟨dir, _, hq⟩ := hq
  obtain ⟨k, _, _, _, hinb, _⟩ := mem_follow_loop_ray _ _ _ _ _ _ _ _ _ _ hq
  exact hinb

theorem coord_bound (k : Nat) (dz s : Int) (hdz : dz ≠ 0) (h1 : 1 ≤ s) (h2 : s ≤ 8)
    (h3 : 1 ≤ s + k * dz) (h4 : s + k * dz ≤ 8) : k ≤ 7 := by
  rcases lt_or_gt_of_ne hdz with h | h
  · have hdz1 : dz ≤ -1 := by omega
    have hm : (k : Int) * dz ≤ (k : Int) * (-1) :=
      mul_le_mul_of_nonneg_left hdz1 (by positivity)
    have : (k : Int) ≤ 7 := by linarith
    omega
  · have hdz1 : 1 ≤ dz := by omega
    have hm : (k : Int) * 1 ≤ (k : Int) * dz :=
      mul_le_mul_of_nonneg_left hdz1 (by positivity)
    have : (k : Int) ≤ 7 := by linarith
    omega

/-- Two in-bounds squares linked by k steps of a nonzero direction are at most
7 steps apart. -/
theorem ray_step_bound (S : Point) (d : Direction) (k : Nat)
    (hS : InBounds S) (hT : InBounds (stepN S d k)) (hd : ¬ (d.x = 0 ∧ d.y = 0)) :
    k ≤ 7 := by
  rw [stepN_eq] at hT
  obtain ⟨ha1, ha2, ha3, ha4⟩ := hS
  obtain ⟨hb1, hb2, hb3, hb4⟩ := hT
  by_cases hx : d.x = 0
  · have hy : d.y ≠ 0 := fun hy => hd ⟨hx, hy⟩
    exact coord_bound k d.y S.2 hy ha3 ha4 hb3 hb4
  · exact coord_bound k d.x S.1 hx ha1 ha2 hb1 hb2

theorem stepN_rev (S T : Point) (d e : Direction) (k j : Nat)
    (hT : T = stepN S d k) (hex : e.x = -d.x) (hey : e.y = -d.y) (hj : j ≤ k) :
    stepN T e j = stepN S d (k - j) := by
  subst hT
  rw [stepN_eq, stepN_eq, stepN_eq]
  have hc : ((k - j : Nat) : Int) = (k : Int) - (j : Int) := by
    omega
  refine Prod.ext ?_ ?_ <;> dsimp only
  · rw [hex, hc]
    ring
  · rw [hey, hc]
    ring

theorem kind_mem_ALL_PIECES (k : Kind) : k ∈ ALL_PIECES := by
  cases k <;> simp [ALL_PIECES]

/-- Check symmetry: if a constructible piece attacks the square of the enemy
king through the move generator, the kind-probe from the king's square detects
it, so `is_in_check` reports check there. -/
theorem check_by_attack (b : Board) (S T : Point) (att kg : Piece)
    (hS : b.get S = some att) (hT : b.get T = some kg)
    (hkg : kg.kind = Kind.king) (hcol : att.color = kg.color.other)
    (hval : ValidPiece att)
    (hmv : T ∈ get_movements b S att.directions att.color) :
    is_in_check b T = true := by
  simp only [get_movements, follow_direction, List.mem_flatMap] at hmv
  obtain ⟨d, hd, hray⟩ := hmv
  have hcap : d.is_capture_direction = true := by
    rcases mem_follow_loop_occupancy _ _ _ _ _ _ _ _ _ _ hray with hnone | ⟨pc, hpc, _, hc⟩
    · rw [hT] at hnone
      cases hnone
    · exact hc
  obtain ⟨k, hk1, hTk, hint, hTin, hreach⟩ :=
    mem_follow_loop_ray _ _ _ _ _ _ _ _ _ _ hray
  obtain ⟨hnz, e, he, hex, hey, hecap, hereach⟩ := valid_capture_dir_symm att hval d hd hcap
  have hSin : InBounds S := Board.inBounds_of_get_some b S att hS
  have hk7 : k ≤ 7 := ray_step_bound S d k hSin (hTk ▸ hTin) hnz
  have hSrev : stepN T e k = S := by
    rw [stepN_rev S T d e k k hTk hex hey (le_refl k)]
    simp [stepN]
  have hprobe : S ∈ follow_loop b e kg.color e.reach e.is_capture_direction
      e.must_capture 64 1 T := by
    rw [← hSrev]
    apply follow_loop_reaches b e kg.color e.reach e.is_capture_direction e.must_capture
      k 64 1 T att hk1 (by omega)
    · intro j hj1 hjk
      rw [stepN_rev S T d e k j hTk hex hey (by omega)]
      exact hint (k - j) (by omega) (by omega)
    · rw [stepN_rev S T d e k k hTk hex hey (le_refl k)]
      simpa [stepN] using hSin
    · rw [stepN_rev S T d e k k hTk hex hey (le_refl k)]
      simpa [stepN] using hS
    · rw [hcol]
      exact Color.other_ne kg.color
    · exact hecap
    · rw [hereach]
      rcases hreach with h | h
      · exact Or.inl h
      · right
        omega
  have hmem : S ∈ get_capture_movements (mkPiece att.kind kg.color) b T
      (mkPiece att.kind kg.color).directions := by
    simp only [get_capture_movements, get_movements, follow_direction, List.mem_flatMap]
    refine ⟨e, ?_, ?_⟩
    · rw [List.mem_filter]
      constructor
      · have : att.color.other = kg.color := by
          rw [hcol, Color.other_other]
        rw [← this]
        exact he
      · rw [hecap]
    · exact hprobe
  unfold is_in_check
  have hcc : check_colors b T = (kg.color, kg.color.other) := by
    unfold check_colors
    rw [hT]
    dsimp only
    rw [if_pos hkg]
  rw [hcc]
  dsimp only
  rw [List.any_eq_true]
  refine ⟨att.kind, kind_mem_ALL_PIECES att.kind, ?_⟩
  rw [List.any_eq_true]
  refine ⟨S, hmem, ?_⟩
  rw [hS]
  simp [hcol]

/-- If the defender is not in check, no constructible enemy piece can reach the
defending king's square through the move generator. -/
theorem no_king_capture (b : Board) (T : Point) (kg : Piece) (hT : b.get T = some kg)
    (hkg : kg.kind = Kind.king) (hnc : is_in_check b T = false)
    (S : Point) (att : Piece) (hS : b.get S = some att)
    (hcol : att.color = kg.color.other) (hval : ValidPiece att) :
    T ∉ get_movements b S att.directions att.color := by
  intro hmv
  rw [check_by_attack b S T att kg hS hT hkg hcol hval hmv] at hnc
  cases hnc

def allPoints : List Point :=
  (List.range 8).flatMap (fun (x : Nat) => (List.range 8).map
    (fun (y : Nat) => ((x : Int) + 1, (y : Int) + 1)))

theorem mem_allPoints (p : Point) : p ∈ allPoints ↔ InBounds p := by
  unfold allPoints
  rw [List.mem_flatMap]
  constructor
  · rintro ⟨x, hx, hmem⟩
    rw [List.mem_map] at hmem
    obtain ⟨y, hy, rfl⟩ := hmem
    rw [List.mem_range] at hx
    rw [List.mem_range] at hy
    exact ⟨by omega, by omega, by omega, by omega⟩
  · rintro ⟨h1, h2, h3, h4⟩
    refine ⟨(p.1 - 1).toNat, ?_, ?_⟩
    · rw [List.mem_range]
      omega
    · rw [List.mem_map]
      refine ⟨(p.2 - 1).toNat, ?_, ?_⟩
      · rw [List.mem_range]
        omega
      · refine Prod.ext ?_ ?_ <;> dsimp only <;> omega

/-- Kings on the initial board: exactly e1 for white and e8 for black. -/
theorem initial_board_kings (c : Color) (q : Point) (pc : Piece)
    (h : initial_board.get q = some pc) (hk : pc.kind = Kind.king)
    (hc : pc.color = c) :
    q = (match c with
         | Color.white => ((5 : Int), (1 : Int))
         | Color.black => ((5 : Int), (8 : Int))) := by
  have hin : InBounds q := Board.inBounds_of_get_some _ _ _ h
  have hq : q ∈ allPoints := (mem_allPoints q).mpr hin
  have hall : allPoints.all (fun r =>
      match initial_board.get r with
      | some pc =>
        !(pc.kind == Kind.king) ||
          ((decide (r = ((5 : Int), (1 : Int))) && (pc.color == Color.white)) ||
           (decide (r = ((5 : Int), (8 : Int))) && (pc.color == Color.black)))
      | none => true) = true := by
    decide
  have hb := List.all_eq_true.mp hall q hq
  rw [h] at hb
  simp only [hk, hc, beq_self_eq_true, Bool.not_true, Bool.false_or, Bool.or_eq_true,
    Bool.and_eq_true, decide_eq_true_eq, beq_iff_eq] at hb
  cases c
  · rcases hb with ⟨hq1, _⟩ | ⟨_, hcc⟩
    · exact hq1
    · cases hcc
  · rcases hb with ⟨_, hcc⟩ | ⟨hq1, _⟩
    · cases hcc
    · exact hq1

/-- The initial state satisfies the invariant. -/
theorem init_state_inv (name1 name2 : String) : GameInv (init_state name1 name2) := by
  refine ⟨?_, ?_, ?_, ?_⟩
  · intro c
    cases c
    · refine ⟨mkPiece Kind.king Color.white, ?_, rfl, rfl⟩
      show initial_board.get ((5 : Int), (1 : Int)) = some (mkPiece Kind.king Color.white)
      decide
    · refine ⟨mkPiece Kind.king Color.black, ?_, rfl, rfl⟩
      show initial_board.get ((5 : Int), (8 : Int)) = some (mkPiece Kind.king Color.black)
      decide
  · intro c q pc h hk hc
    have := initial_board_kings c q pc h hk hc
    cases c
    · exact this
    · exact this
  · exact create_board_wf _
  · show is_in_check initial_board ((5 : Int), (8 : Int)) = false
    decide

theorem color_cases (c m : Color) : c = m ∨ c = m.other := by
  cases c <;> cases m <;> simp [Color.other]

theorem legal_move_elim (b : Board) (pos : Point) (player : Player) (piece : Piece)
    (hP : b.get pos = some piece) (L : List Point)
    (hL : get_legal_moves b pos player = some L) (newp : Point) (hmem : newp ∈ L) :
    newp ∈ get_movements b pos piece.directions piece.color ∧
      (move_escapes_check b player newp pos).1 = true := by
  unfold get_legal_moves at hL
  rw [hP] at hL
  dsimp only at hL
  cases hL
  exact ⟨(List.mem_filter.mp hmem).1, (List.mem_filter.mp hmem).2⟩

theorem simulate_board_get (bd : Board) (o n q : Point) :
    (simulate_board bd o n).get q =
      if q = o ∧ InBounds o then none
      else if q = n ∧ InBounds n then bd.get o
      else bd.get q := by
  unfold simulate_board
  rw [Board.get_update_square, Board.get_update_square]

theorem move_piece_eq (bd : Board) (o n : Point) (player : Player) (ch : PromoKind)
    (piece : Piece) (hP : bd.get o = some piece) (hne : o ≠ n) :
    move_piece bd o n player ch =
      apply_effects (simulate_board bd o n) o n player (some piece) ch := by
  unfold move_piece remove_piece simulate_board
  dsimp only
  rw [Board.get_update_square_ne bd _ n o hne, hP]

theorem apply_effects_king (bd : Board) (o n : Point) (pl : Player) (ch : PromoKind)
    (pc : Piece) (hk : pc.kind = Kind.king) :
    apply_effects bd o n pl (some pc) ch = (bd, { pl with king_position := n }) := by
  unfold apply_effects
  dsimp only
  rw [if_neg (by rw [hk]; intro hcon; cases hcon), if_pos hk]

theorem apply_effects_other (bd : Board) (o n : Point) (pl : Player) (ch : PromoKind)
    (pc : Piece) (hp : pc.kind ≠ Kind.pawn) (hk : pc.kind ≠ Kind.king) :
    apply_effects bd o n pl (some pc) ch = (bd, pl) := by
  unfold apply_effects
  dsimp only
  rw [if_neg hp, if_neg hk]

theorem apply_effects_pawn_spec (bd : Board) (o n : Point) (pl : Player) (ch : PromoKind)
    (pc : Piece) (hp : pc.kind = Kind.pawn) (hval : ValidPiece pc) (hn : InBounds n) :
    ∃ (final : Board) (pc' : Piece),
      apply_effects bd o n pl (some pc) ch = (final, pl) ∧
      (∀ q, q ≠ n → final.get q = bd.get q) ∧ final.get n = some pc' ∧
      pc'.color = pc.color ∧ pc'.kind ≠ Kind.king ∧ ValidPiece pc' := by
  unfold apply_effects
  dsimp only
  rw [if_pos hp]
  by_cases hb : (change_reach pc 1).color = Color.black ∧ n.2 = 1
  · rw [if_pos hb]
    unfold promote_piece
    refine ⟨_, mkPiece ch.toKind (change_reach pc 1).color, rfl, ?_, ?_, ?_, ?_, Or.inl rfl⟩
    · intro q hq
      rw [Board.get_update_square_ne _ _ _ _ hq, Board.get_update_square_ne _ _ _ _ hq]
    · rw [Board.get_update_square]
      simp [hn]
    · rw [mkPiece_color, change_reach_color]
    · rw [mkPiece_kind]
      exact promo_kind_ne_king ch
  · rw [if_neg hb]
    by_cases hw : (change_reach pc 1).color = Color.white ∧ n.2 = 8
    · rw [if_pos hw]
      unfold promote_piece
      refine ⟨_, mkPiece ch.toKind (change_reach pc 1).color, rfl, ?_, ?_, ?_, ?_, Or.inl rfl⟩
      · intro q hq
        rw [Board.get_update_square_ne _ _ _ _ hq, Board.get_update_square_ne _ _ _ _ hq]
      · rw [Board.get_update_square]
        simp [hn]
      · rw [mkPiece_color, change_reach_color]
      · rw [mkPiece_kind]
        exact promo_kind_ne_king ch
    · rw [if_neg hw]
      refine ⟨_, change_reach pc 1, rfl, ?_, ?_, ?_, ?_, valid_change_reach pc hval hp⟩
      · intro q hq
        rw [Board.get_update_square_ne _ _ _ _ hq]
      · rw [Board.get_update_square]
        simp [hn]
      · rw [change_reach_color]
      · rw [change_reach_kind, hp]
        intro hcon
        cases hcon

theorem commit_board (s : GameState) (o n : Point) (ch : PromoKind) :
    (s.commit o n ch).board = (move_piece s.board o n (s.player s.turn) ch).1 := rfl

theorem commit_turn (s : GameState) (o n : Point) (ch : PromoKind) :
    (s.commit o n ch).turn = s.turn.other := rfl

theorem commit_player_turn (s : GameState) (o n : Point) (ch : PromoKind) :
    (s.commit o n ch).player s.turn = (move_piece s.board o n (s.player s.turn) ch).2 := by
  cases ht : s.turn <;> simp [GameState.commit, GameState.player, ht]

theorem commit_player_other (s : GameState) (o n : Point) (ch : PromoKind) :
    (s.commit o n ch).player s.turn.other = s.player s.turn.other := by
  cases ht : s.turn <;> simp [GameState.commit, GameState.player, Color.other, ht]

/-- Every validated move commit preserves the game invariant. -/
theorem step_preserves_inv (s t : GameState) (hstep : Step s t) (hinv : GameInv s) :
    GameInv t := by
  obtain ⟨hkings, huniq, hwf, hnotcheck⟩ := hinv
  cases hstep with
  | move oldp newp choice piece hold hcolor hlegal =>
    obtain ⟨L, hL, hmemL⟩ := hlegal
    obtain ⟨hmov, hesc⟩ :=
      legal_move_elim s.board oldp (s.player s.turn) piece hold L hL newp hmemL
    have hnewin : InBounds newp := mem_get_movements_inBounds _ _ _ _ _ hmov
    have holdin : InBounds oldp := Board.inBounds_of_get_some _ _ _ hold
    have hne : oldp ≠ newp := (mem_get_movements_ne_self _ _ _ _ hold _ hmov).symm
    obtain ⟨kgo, hkgo, hkgok, hkgoc⟩ := hkings s.turn.other
    obtain ⟨kgm, hkgm, hkgmk, hkgmc⟩ := hkings s.turn
    have hpco : piece.color = kgo.color.other := by
      rw [hcolor, hkgoc, Color.other_other]
    have hoko : newp ≠ (s.player s.turn.other).king_position := by
      intro he
      exact no_king_capture s.board _ kgo hkgo hkgok hnotcheck oldp piece hold hpco
        (hwf _ _ hold) (he ▸ hmov)
    have hko_old : (s.player s.turn.other).king_position ≠ oldp := by
      intro he
      have h1 := hkgo
      rw [he, hold] at h1
      have hkp : kgo = piece := (Option.some.inj h1).symm
      apply Color.other_ne s.turn
      rw [← hkgoc, hkp, hcolor]
    have hko_new : (s.player s.turn.other).king_position ≠ newp := fun he => hoko he.symm
    have hsim : is_in_check (simulate_board s.board oldp newp)
        (if piece.kind = Kind.king then newp
         else (s.player s.turn).king_position) = false := by
      rw [move_escapes_check_fst s.board (s.player s.turn) newp oldp piece hold hne] at hesc
      rwa [Bool.not_eq_true'] at hesc
    have hBo : (simulate_board s.board oldp newp).get oldp = none := by
      rw [simulate_board_get]
      simp [holdin]
    have hBn : (simulate_board s.board oldp newp).get newp = some piece := by
      rw [simulate_board_get]
      rw [if_neg (fun hc => hne hc.1.symm), if_pos ⟨rfl, hnewin⟩, hold]
    have hBq : ∀ q, q ≠ oldp → q ≠ newp →
        (simulate_board s.board oldp newp).get q = s.board.get q := by
      intro q h1 h2
      rw [simulate_board_get, if_neg (fun hc => h1 hc.1), if_neg (fun hc => h2 hc.1)]
    have hcb : (s.commit oldp newp choice).board =
        (apply_effects (simulate_board s.board oldp newp) oldp newp (s.player s.turn)
          (some piece) choice).1 := by
      rw [commit_board, move_piece_eq s.board oldp newp (s.player s.turn) choice piece hold hne]
    have hcpm : (s.commit oldp newp choice).player s.turn =
        (apply_effects (simulate_board s.board oldp newp) oldp newp (s.player s.turn)
          (some piece) choice).2 := by
      rw [commit_player_turn, move_piece_eq s.board oldp newp (s.player s.turn) choice piece hold hne]
    have hcpo := commit_player_other s oldp newp choice
    have hcto : (s.commit oldp newp choice).turn.other = s.turn := by
      rw [commit_turn, Color.other_other]
    by_cases hkind : piece.kind = Kind.king
    · -- the mover's king moves: the cache follows it to the destination
      have holdkp : oldp = (s.player s.turn).king_position :=
        huniq s.turn oldp piece hold hkind hcolor
      have hae := apply_effects_king (simulate_board s.board oldp newp) oldp newp
        (s.player s.turn) choice piece hkind
      refine ⟨?_, ?_, ?_, ?_⟩
      · intro c
        rcases color_cases c s.turn with rfl | rfl
        · refine ⟨piece, ?_, hkind, hcolor⟩
          simp only [hcb, hcpm, hae]
          exact hBn
        · refine ⟨kgo, ?_, hkgok, hkgoc⟩
          simp only [hcb, hcpo, hae]
          rw [hBq _ hko_old hko_new]
          exact hkgo
      · intro c q pc hq hqk hqc
        simp only [hcb, hae] at hq
        rcases color_cases c s.turn with rfl | rfl
        · simp only [hcpm, hae]
          by_cases hqo : q = oldp
          · rw [hqo, hBo] at hq
            cases hq
          · by_cases hqn : q = newp
            · exact hqn
            · rw [hBq q hqo hqn] at hq
              have hcon := huniq s.turn q pc hq hqk hqc
              rw [← holdkp] at hcon
              exact absurd hcon hqo
        · simp only [hcpo]
          by_cases hqo : q = oldp
          · rw [hqo, hBo] at hq
            cases hq
          · by_cases hqn : q = newp
            · rw [hqn, hBn] at hq
              have hpq : piece = pc := Option.some.inj hq
              rw [← hpq] at hqc
              exact absurd (hqc.symm.trans hcolor) (Color.other_ne s.turn)
            · rw [hBq q hqo hqn] at hq
              exact huniq s.turn.other q pc hq hqk hqc
      · intro q pc hq
        simp only [hcb, hae] at hq
        by_cases hqo : q = oldp
        · rw [hqo, hBo] at hq
          cases hq
        · by_cases hqn : q = newp
          · rw [hqn, hBn] at hq
            have hpq : piece = pc := Option.some.inj hq
            rw [← hpq]
            exact hwf _ _ hold
          · rw [hBq q hqo hqn] at hq
            exact hwf _ _ hq
      · rw [hcto]
        simp only [hcb, hcpm, hae]
        rw [if_pos hkind] at hsim
        exact hsim
    · -- a non-king piece moves: both caches and both kings stay put
      have hkm_old : (s.player s.turn).king_position ≠ oldp := by
        intro he
        have h1 := hkgm
        rw [he, hold] at h1
        have hkp : kgm = piece := (Option.some.inj h1).symm
        rw [hkp] at hkgmk
        exact hkind hkgmk
      have hkm_new : (s.player s.turn).king_position ≠ newp := by
        intro he
        rcases mem_get_movements_occupancy _ _ _ _ _ hmov with hnone | ⟨pc, hpc, hc⟩
        · rw [← he, hkgm] at hnone
          cases hnone
        · rw [← he, hkgm] at hpc
          have : kgm = pc := Option.some.inj hpc
          rw [← this, hkgmc] at hc
          rw [hcolor] at hc
          exact hc rfl
      have hccB : check_colors (simulate_board s.board oldp newp)
          ((s.player s.turn).king_position) = (s.turn, s.turn.other) := by
        unfold check_colors
        rw [hBq _ hkm_old hkm_new, hkgm]
        simp [hkgmk, hkgmc]
      by_cases hpawn : piece.kind = Kind.pawn
      · obtain ⟨final, pc', hae, hfq, hfn, hfc, hfk, hfv⟩ :=
          apply_effects_pawn_spec (simulate_board s.board oldp newp) oldp newp
            (s.player s.turn) choice piece hpawn (hwf _ _ hold) hnewin
        have hfo : final.get oldp = none := by
          rw [hfq oldp hne, hBo]
        have hfelse : ∀ q, q ≠ oldp → q ≠ newp → final.get q = s.board.get q := by
          intro q h1 h2
          rw [hfq q h2, hBq q h1 h2]
        have hchk : is_in_check final ((s.player s.turn).king_position) = false := by
          rw [← is_in_check_congr (simulate_board s.board oldp newp) final
            ((s.player s.turn).king_position) (hfq _ hkm_new).symm ?_ ?_]
          · rw [if_neg hkind] at hsim
            exact hsim
          · intro p
            unfold occColor
            by_cases hp : p = newp
            · rw [hp, hBn, hfn]
              simp [hfc]
            · rw [hfq p hp]
          · intro p
            by_cases hp : p = newp
            · right
              refine ⟨piece, pc', by rw [hp]; exact hBn, by rw [hp]; exact hfn, ?_, ?_⟩
              · rw [hccB, hcolor]
              · rw [hccB, hfc, hcolor]
            · exact Or.inl (hfq p hp).symm
        refine ⟨?_, ?_, ?_, ?_⟩
        · intro c
          rcases color_cases c s.turn with rfl | rfl
          · refine ⟨kgm, ?_, hkgmk, hkgmc⟩
            simp only [hcb, hcpm, hae]
            rw [hfelse _ hkm_old hkm_new]
            exact hkgm
          · refine ⟨kgo, ?_, hkgok, hkgoc⟩
            simp only [hcb, hcpo, hae]
            rw [hfelse _ hko_old hko_new]
            exact hkgo
        · intro c q pc hq hqk hqc
          simp only [hcb, hae] at hq
          by_cases hqo : q = oldp
          · rw [hqo, hfo] at hq
            cases hq
          · by_cases hqn : q = newp
            · rw [hqn, hfn] at hq
              have hpq : pc' = pc := Option.some.inj hq
              rw [← hpq] at hqk
              exact absurd hqk hfk
            · rw [hfelse q hqo hqn] at hq
              rcases color_cases c s.turn with rfl | rfl
              · simp only [hcpm, hae]
                exact huniq s.turn q pc hq hqk hqc
              · simp only [hcpo]
                exact huniq s.turn.other q pc hq hqk hqc
        · intro q pc hq
          simp only [hcb, hae] at hq
          by_cases hqo : q = oldp
          · rw [hqo, hfo] at hq
            cases hq
          · by_cases hqn : q = newp
            · rw [hqn, hfn] at hq
              have hpq : pc' = pc := Option.some.inj hq
              rw [← hpq]
              exact hfv
            · rw [hfelse q hqo hqn] at hq
              exact hwf _ _ hq
        · rw [hcto]
          simp only [hcb, hcpm, hae]
          exact hchk
      · have hae := apply_effects_other (simulate_board s.board oldp newp) oldp newp
          (s.player s.turn) choice piece hpawn hkind
        refine ⟨?_, ?_, ?_, ?_⟩
        · intro c
          rcases color_cases c s.turn with rfl | rfl
          · refine ⟨kgm, ?_, hkgmk, hkgmc⟩
            simp only [hcb, hcpm, hae]
            rw [hBq _ hkm_old hkm_new]
            exact hkgm
          · refine ⟨kgo, ?_, hkgok, hkgoc⟩
            simp only [hcb, hcpo, hae]
            rw [hBq _ hko_old hko_new]
            exact hkgo
        · intro c q pc hq hqk hqc
          simp only [hcb, hae] at hq
          by_cases hqo : q = oldp
          · rw [hqo, hBo] at hq
            cases hq
          · by_cases hqn : q = newp
            · rw [hqn, hBn] at hq
              have hpq : piece = pc := Option.some.inj hq
              rw [← hpq] at hqk
              exact absurd hqk hkind
            · rw [hBq q hqo hqn] at hq
              rcases color_cases c s.turn with rfl | rfl
              · simp only [hcpm, hae]
                exact huniq s.turn q pc hq hqk hqc
              · simp only [hcpo]
                exact huniq s.turn.other q pc hq hqk hqc
        · intro q pc hq
          simp only [hcb, hae] at hq
          by_cases hqo : q = oldp
          · rw [hqo, hBo] at hq
            cases hq
          · by_cases hqn : q = newp
            · rw [hqn, hBn] at hq
              have hpq : piece = pc := Option.some.inj hq
              rw [← hpq]
              exact hwf _ _ hold
            · rw [hBq q hqo hqn] at hq
              exact hwf _ _ hq
        · rw [hcto]
          simp only [hcb, hcpm, hae]
          rw [if_neg hkind] at hsim
          exact hsim

/-- C7: in every game state reachable from the initial state by validated move
commits, each player's cached king position holds that player's king on the
board, and it is the only square holding a king of that color (Player
construction initialises the cache to the king's starting square of the
default layout, and a committed king move updates the cache to the
destination). -/
theorem c7_king_cache (name1 name2 : String) (s : GameState)
    (h : Reachable (init_state name1 name2) s) :
    ∀ c : Color,
      (∃ kg : Piece, s.board.get ((s.player c).king_position) = some kg ∧
        kg.kind = Kind.king ∧ kg.color = c) ∧
      (∀ (q : Point) (pc : Piece), s.board.get q = some pc → pc.kind = Kind.king →
        pc.color = c → q = (s.player c).king_position) := by
  have hinv : GameInv s := by
    induction h with
    | refl => exact init_state_inv name1 name2
    | tail hsteps hstep ih => exact step_preserves_inv _ _ hstep ih
  exact fun c => ⟨hinv.1 c, fun q pc h1 h2 h3 => hinv.2.1 c q pc h1 h2 h3⟩

/-- C7 witness: the initial state itself (reachable by the empty sequence of
commits). -/
theorem c7_witness :
    Reachable (init_state ("a") ("b")) (init_state ("a") ("b")) ∧
    (∀ c : Color,
      (∃ kg : Piece, (init_state ("a") ("b")).board.get
          (((init_state ("a") ("b")).player c).king_position) = some kg ∧
        kg.kind = Kind.king ∧ kg.color = c) ∧
      (∀ (q : Point) (pc : Piece), (init_state ("a") ("b")).board.get q = some pc →
        pc.kind = Kind.king → pc.color = c →
        q = ((init_state ("a") ("b")).player c).king_position)) :=
  ⟨Relation.ReflTransGen.refl,
   c7_king_cache ("a") ("b") (init_state ("a") ("b")) Relation.ReflTransGen.refl⟩
